import Mathlib

/-!
Shallow embedding of the cloze flashcard generator (clozeFlashcardGenerator
repository) for checking the natural-language specification against the code.

Python strings are modelled as lists of characters (`Str`), Python dicts as
insertion-ordered association lists, and the float arithmetic of the
diversity selector as real arithmetic.  Sentence identity (`hash(str(line))`
in `models.Line`) is modelled by the fully reconstructed string itself; the
specification declares hash collisions an accepted, undefended risk, so the
model treats the hash as injective.
-/

/-- Python str, modelled as a list of characters. -/
abbrev Str := List Char

/-- Resources.punctuationChars = "\",.?_" (resources.py). -/
def punctuationChars : Str := ['"', ',', '.', '?', '_']

/-- Membership in the recognized punctuation character set. -/
def isPunctChar (c : Char) : Bool := punctuationChars.contains c

/-- Python regex word character (\w): alphanumeric or underscore (ASCII scope of the
validated corpus). -/
def isWordChar (c : Char) : Bool := c.isAlphanum || c = '_'

/-- Helper for Python str.split() (split on whitespace runs, dropping empty parts):
accumulates the current word in reverse. -/
def pySplitAux : Str → Str → List Str
  | [], acc => if acc.isEmpty then [] else [acc.reverse]
  | c :: cs, acc =>
    if c.isWhitespace then
      if acc.isEmpty then pySplitAux cs [] else acc.reverse :: pySplitAux cs []
    else pySplitAux cs (c :: acc)

/-- Python str.split() with no argument. -/
def pySplit (s : Str) : List Str := pySplitAux s []

/-- Python " ".join(parts). -/
def joinSpace : List Str → Str
  | [] => []
  | [c] => c
  | c :: c2 :: cs => c ++ ' ' :: joinSpace (c2 :: cs)

/-- Python str.split(sep) for a single separator character. -/
def splitOnChar (sep : Char) : Str → List Str
  | [] => [[]]
  | c :: cs =>
    if c = sep then [] :: splitOnChar sep cs
    else
      match splitOnChar sep cs with
      | [] => [[c]]
      | p :: ps => (c :: p) :: ps

/-- Python int(s) on a digit string. -/
def digitsToNat (s : Str) : Nat :=
  s.foldl (fun n c => n * 10 + (c.toNat - '0'.toNat)) 0

/-- Python str(n) for a natural number (used for the cloze id suffix). -/
def natToDigits (n : Nat) : Str := Nat.toDigits 10 n

/-- Lookup in a Python dict modelled as an insertion-ordered association list. -/
def pyDictLookup {α β : Type} [DecidableEq α] : List (α × β) → α → Option β
  | [], _ => none
  | (k, v) :: rest, key => if k = key then some v else pyDictLookup rest key

/-- Python `key in dict`. -/
def pyDictContains {α β : Type} [DecidableEq α] (d : List (α × β)) (k : α) : Bool :=
  (pyDictLookup d k).isSome

/-- Python `d[k] = v`: update in place keeping position, else append. -/
def pyDictInsert {α β : Type} [DecidableEq α] : List (α × β) → α → β → List (α × β)
  | [], key, v => [(key, v)]
  | (k, v0) :: rest, key, v =>
    if k = key then (k, v) :: rest else (k, v0) :: pyDictInsert rest key v

/-- Python `if k not in d: d[k] = []` followed by `d[k].append(v)`. -/
def pyDictAppendVal {α β : Type} [DecidableEq α] : List (α × List β) → α → β → List (α × List β)
  | [], key, v => [(key, [v])]
  | (k, l) :: rest, key, v =>
    if k = key then (k, l ++ [v]) :: rest else (k, l) :: pyDictAppendVal rest key v

/-- Python `if k not in d: d[k] = []` alone (used by processPunctuation). -/
def pyDictEnsure {α β : Type} [DecidableEq α] (d : List (α × List β)) (k : α) : List (α × List β) :=
  if pyDictContains d k then d else d ++ [(k, [])]

/-- Python `d[k].append(v)` on an existing entry. -/
def pyDictPush {α β : Type} [DecidableEq α] (d : List (α × List β)) (k : α) (v : β) :
    List (α × List β) :=
  d.map (fun e => if e.1 = k then (e.1, e.2 ++ [v]) else e)

/-- models.PunctuationWordPosition. -/
inductive PunctuationWordPosition
  | BEFORE
  | AFTER
  | ALONE
deriving DecidableEq

/-- models.Punctuation: a character run plus its placement classifier. -/
structure Punctuation where
  character : Str
  wordPosition : PunctuationWordPosition
deriving DecidableEq

/-- models.Word.  The back references line/index are represented positionally
(a word is identified by its position in its Line), and membership in a
MultiWordExpression is recorded by the in-sentence key of the expression
object created by the parser (None when the Word was constructed without
an expression). -/
structure Word where
  thisWordString : Str
  multiWordExpression : Option Int
deriving DecidableEq

/-- models.Line: an ordered word list plus the position-to-punctuation map. -/
structure Line where
  words : List Word
  punctuationDict : List (Nat × List Punctuation)
deriving DecidableEq

/-- One occurrence of a lexical unit: a Word object together with the back
references that models.Line fills in (its Line and its index in it). -/
structure WordOcc where
  line : Line
  index : Nat
deriving DecidableEq

/-- models.SimpleClozeFlashcard: the canonical five-part decomposition. -/
structure SimpleClozeFlashcard where
  beforeCloze : Str
  midCloze : Str
  afterCloze : Str
  clozePart1 : Str
  clozePart2 : Str
  inUse : Bool
deriving DecidableEq

/-- SimpleClozeFlashcard.__eq__: structural equality over the five text
fields, ignoring inUse. -/
def scfEq (a b : SimpleClozeFlashcard) : Bool :=
  a.beforeCloze = b.beforeCloze ∧ a.midCloze = b.midCloze ∧ a.afterCloze = b.afterCloze ∧
    a.clozePart1 = b.clozePart1 ∧ a.clozePart2 = b.clozePart2

/-- models.ClozeFlashcard: a Line, a blank word index, the inUse flag, and
the memoized simpleClozeFlashcard cache (None until GetSimpleClozeFlashcard
has been called). -/
structure ClozeFlashcard where
  line : Line
  wordIndex : Nat
  inUse : Bool
  simpleClozeFlashcard : Option SimpleClozeFlashcard
deriving DecidableEq

/-- The ClozeFlashcard constructor: the memo cache starts as None. -/
def mkClozeFlashcard (line : Line) (wordIndex : Nat) (inUse : Bool) : ClozeFlashcard :=
  ⟨line, wordIndex, inUse, none⟩

/-- utils.getWordStringAndId: split "word_1" into ("word", 1); on a
malformed tag (not exactly two parts, or a non-digit id) log and fall back
to id 0, keeping only the part before the underscore when there are exactly
two parts. -/
def getWordStringAndId (wordString : Str) : Str × Int :=
  match splitOnChar '_' wordString with
  | [p0, p1] =>
    if p1.isEmpty then (p0, 0)
    else if p1.all Char.isDigit then (p0, (digitsToNat p1 : Int))
    else (p0, 0)
  | _ => (wordString, 0)

/-- utils.processPunctuation.  The regex ([P]*)(.*?)([P]*)$ decomposes a chunk
into a maximal leading punctuation run, a middle, and a maximal trailing
punctuation run of the remainder; a chunk en entirely of punctuation becomes an
ALONE mark.  An (possibly empty) entry for realIndex is always created first,
exactly as the Python code does. -/
def processPunctuation (subString : Str) (punctuationDict : List (Nat × List Punctuation))
    (realIndex : Nat) : Str × Bool × List (Nat × List Punctuation) :=
  let group1 := subString.takeWhile isPunctChar
  let rest := subString.dropWhile isPunctChar
  let group3 := (rest.reverse.takeWhile isPunctChar).reverse
  let group2 := (rest.reverse.dropWhile isPunctChar).reverse
  let d0 := pyDictEnsure punctuationDict realIndex
  if group2.isEmpty then
    ([], true, pyDictPush d0 realIndex ⟨group1 ++ group3, .ALONE⟩)
  else
    let d1 := if group1.isEmpty then d0 else pyDictPush d0 realIndex ⟨group1, .BEFORE⟩
    let d2 := if group3.isEmpty then d1 else pyDictPush d1 realIndex ⟨group3, .AFTER⟩
    (group2, false, d2)

/-- Python min(keys, default=1). -/
def minKeyDefaultOne : List Int → Int
  | [] => 1
  | k :: ks => ks.foldl min k

/-- utils.processMultiWordExpressions: a tagged word joins (or creates) the
expression with its tag id; an untagged word gets a fresh negative key.  The
state is the insertion-ordered list of expression keys created so far. -/
def processMultiWordExpressions (wordString : Str) (multiWordExpressions : List Int) :
    Str × Int × List Int :=
  let p :=
    if wordString.contains '_' then getWordStringAndId wordString
    else
      let currentLowestExpressionId := minKeyDefaultOne multiWordExpressions
      (wordString, if currentLowestExpressionId < 0 then currentLowestExpressionId - 1 else -1)
  (p.1, p.2,
    if multiWordExpressions.contains p.2 then multiWordExpressions
    else multiWordExpressions ++ [p.2])

/-- Parser state while folding over the whitespace chunks of a line. -/
structure ParseState where
  words : List Word
  punctuationDict : List (Nat × List Punctuation)
  alonePunctuation : Nat
  mweKeys : List Int

/-- One iteration of the chunk loop of utils.parseSentenceLine. -/
def parseChunkStep (st : ParseState) (ic : Nat × Str) : ParseState :=
  let realIndex := ic.1 - st.alonePunctuation
  let r := processPunctuation ic.2 st.punctuationDict realIndex
  if r.2.1 then
    { st with punctuationDict := r.2.2, alonePunctuation := st.alonePunctuation + 1 }
  else
    let m := processMultiWordExpressions r.1 st.mweKeys
    { words := st.words ++ [⟨m.1, some m.2.1⟩]
      punctuationDict := r.2.2
      alonePunctuation := st.alonePunctuation
      mweKeys := m.2.2 }

/-- Word.getUniqueWordId: the word string itself for a standalone word, or the
space join of all member word strings (in sentence order, exactly as the
Python code joins MultiWordExpression.words, which are appended in parse
order) for an expression member. -/
def getUniqueWordId (l : Line) (w : Word) : Str :=
  match w.multiWordExpression with
  | none => w.thisWordString
  | some k => joinSpace ((l.words.filter (fun x => x.multiWordExpression = some k)).map
      (fun x => x.thisWordString))

/-- Occurrence registry: unique word id to the list of Word occurrences,
insertion ordered (Word.uniqueWordIdToWordObjects). -/
abbrev RegDict := List (Str × List WordOcc)

/-- The registration loop at the end of utils.parseSentenceLine: for each
expression (in creation order) register its first member word, keyed by its
unique word id (utils.addWordToClassDict). -/
def registerLine (l : Line) (mweKeys : List Int) (reg : RegDict) : RegDict :=
  mweKeys.foldl (fun r k =>
    match (l.words.enum.filter (fun iw => iw.2.multiWordExpression = some k)).head? with
    | none => r
    | some iw => pyDictAppendVal r (getUniqueWordId l iw.2) ⟨l, iw.1⟩) reg

/-- utils.parseSentenceLine: split on whitespace, strip punctuation, route
tagged words to their expressions, and (unless addWordsToClassDict is False)
register each lexical identity into the occurrences index. -/
def parseSentenceLine (line : Str) (uniqueWordIdToWordObjects : RegDict)
    (addWordsToClassDict : Bool) : Line × RegDict :=
  let st := (pySplit line).enum.foldl parseChunkStep ⟨[], [], 0, []⟩
  let l : Line := ⟨st.words, st.punctuationDict⟩
  (l, if addWordsToClassDict then registerLine l st.mweKeys uniqueWordIdToWordObjects
      else uniqueWordIdToWordObjects)

/-- The corpus indexing loop (globalUtils.getUniqueWordIdToWordObjects):
parse every validated line, accumulating the occurrences index. -/
def indexCorpus (sentenceLines : List Str) : RegDict :=
  sentenceLines.foldl (fun reg line => (parseSentenceLine line reg true).2) []

/-- First punctuation mark of a list with the given placement, as Python
`[p for p in ps if p.wordPosition == pos][0]` guarded by non-emptiness. -/
def firstWithPosition (ps : List Punctuation) (pos : PunctuationWordPosition) :
    Option Punctuation :=
  (ps.filter (fun p => p.wordPosition = pos)).head?

/-- models.Line.stringifyWordsAndPunctuation: rebuild a line string from the
word list and the punctuation map.  Only the first mark of each placement kind
at a position is rendered, and a trailing ALONE mark is emitted as its
character followed by a space. -/
def stringifyWordsAndPunctuation (words : List Word)
    (punctuationDict : List (Nat × List Punctuation)) : Str :=
  let body := (words.enum.map (fun iw =>
    let sep : Str := if 0 < iw.1 then [' '] else []
    match pyDictLookup punctuationDict iw.1 with
    | none => sep ++ iw.2.thisWordString
    | some ps =>
      if ps.isEmpty then sep ++ iw.2.thisWordString
      else
        let aloneStr : Str := match firstWithPosition ps .ALONE with
          | some p => p.character ++ [' ']
          | none => []
        let w1 : Str := match firstWithPosition ps .BEFORE with
          | some p => p.character ++ iw.2.thisWordString
          | none => iw.2.thisWordString
        let w2 : Str := match firstWithPosition ps .AFTER with
          | some p => w1 ++ p.character
          | none => w1
        sep ++ aloneStr ++ w2)).flatten
  let endStr : Str := match pyDictLookup punctuationDict words.length with
    | none => []
    | some ps =>
      match firstWithPosition ps .ALONE with
      | some p => p.character ++ [' ']
      | none => []
  body ++ endStr

/-- models.Line.__str__ and the line identity hash: the Line id is the hash of
the reconstructed string, modelled by the string itself. -/
def lineIdStr (l : Line) : Str := stringifyWordsAndPunctuation l.words l.punctuationDict

/-- models.Line.__eq__: two Lines are equal when their ids (hashes of their
reconstructed strings) are equal. -/
def linePyEq (a b : Line) : Bool := lineIdStr a = lineIdStr b

/-- One punctuation mark applied inside the loop of
ClozeFlashcard.GetStringOfWordsAndPunctuation: ALONE marks are flushed to the
result (suppressed inside a cloze segment), BEFORE and AFTER marks are glued
onto the pending word string. -/
def applyPunctuationStep (isCloze : Bool) (acc : Str × Str) (p : Punctuation) : Str × Str :=
  match p.wordPosition with
  | .ALONE => if isCloze then acc else (acc.1 ++ p.character ++ [' '], acc.2)
  | .BEFORE => (acc.1, p.character ++ acc.2)
  | .AFTER => (acc.1, acc.2 ++ p.character)

/-- models.ClozeFlashcard.GetStringOfWordsAndPunctuation: render the token
range [firstIndex, nextIndex) with its punctuation; a non-cloze segment also
absorbs ALONE marks sitting at position nextIndex. -/
def GetStringOfWordsAndPunctuation (l : Line) (firstIndex nextIndex : Nat)
    (isCloze leadingSpace trailingSpace : Bool) : Str :=
  let init : Str := if leadingSpace then [' '] else []
  let r1 := (List.range' firstIndex (nextIndex - firstIndex)).foldl (fun res i =>
    let wordString := (l.words.getD i ⟨[], none⟩).thisWordString
    let rw : Str × Str := match pyDictLookup l.punctuationDict i with
      | some ps => ps.foldl (applyPunctuationStep isCloze) (res, wordString)
      | none => (res, wordString)
    rw.1 ++ rw.2 ++ (if i < nextIndex - 1 then [' '] else [])) init
  let r2 :=
    if isCloze then r1
    else
      match pyDictLookup l.punctuationDict nextIndex with
      | some ps => ps.foldl (fun r p =>
          if p.wordPosition = .ALONE then r ++ [' '] ++ p.character else r) r1
      | none => r1
  if trailingSpace then r2 ++ [' '] else r2

/-- Positions of the member words of the in-sentence expression k, in sentence
order (MultiWordExpression.words are appended in parse order). -/
def mweIndices (l : Line) (k : Int) : List Nat :=
  (l.words.enum.filter (fun iw => iw.2.multiWordExpression = some k)).map (fun iw => iw.1)

/-- Length of the initial contiguous index run, used by
MultiWordExpression.getNumWordsBeforeSplitInCloze. -/
def initialRunLength : Nat → List Nat → Nat
  | _, [] => 0
  | expected, i :: rest =>
    if i = expected then 1 + initialRunLength (i + 1) rest else 0

/-- MultiWordExpression.getNumWordsBeforeSplitInCloze: how many member words
precede the split (the initial contiguous run of member positions). -/
def getNumWordsBeforeSplitInCloze (idxs : List Nat) : Nat :=
  match idxs with
  | [] => 0
  | i0 :: rest => initialRunLength i0 (i0 :: rest)

/-- MultiWordExpression.getNumWordsInSplitOfCloze: the count of intervening
non-member positions inside the span of the expression. -/
def getNumWordsInSplitOfCloze (idxs : List Nat) : Nat :=
  match idxs, idxs.getLast? with
  | i0 :: _, some iLast => (iLast - i0 + 1) - idxs.length
  | _, _ => 0

/-- MultiWordExpression.getNumWordsAfterSplitInCloze. -/
def getNumWordsAfterSplitInCloze (idxs : List Nat) : Nat :=
  idxs.length - getNumWordsBeforeSplitInCloze idxs

/-- models.ClozeFlashcard.GetSimpleClozeFlashcard, as a pure function of the
line, the blank index and the inUse flag (the Python method memoizes this
value in self.simpleClozeFlashcard). -/
def computeSimpleClozeFlashcard (l : Line) (wordIndex : Nat) (inUse : Bool) :
    SimpleClozeFlashcard :=
  let beforeCloze := GetStringOfWordsAndPunctuation l 0 wordIndex false false false
  let firstClozeWord := l.words.getD wordIndex ⟨[], none⟩
  match firstClozeWord.multiWordExpression with
  | none =>
    let clozePart1 := GetStringOfWordsAndPunctuation l wordIndex (wordIndex + 1) true false false
    let len := l.words.length
    let afterCloze :=
      if wordIndex + 1 ≠ len ∨ pyDictContains l.punctuationDict len then
        GetStringOfWordsAndPunctuation l (wordIndex + 1) len false false false
      else []
    ⟨beforeCloze, [], afterCloze, clozePart1, [], inUse⟩
  | some k =>
    let idxs := mweIndices l k
    let i1 := wordIndex + getNumWordsBeforeSplitInCloze idxs
    let clozePart1 :=
      if wordIndex ≠ i1 then GetStringOfWordsAndPunctuation l wordIndex i1 true false false
      else []
    let i2 := i1 + getNumWordsInSplitOfCloze idxs
    let midCloze :=
      if i1 ≠ i2 then GetStringOfWordsAndPunctuation l i1 i2 false false false else []
    let i3 := i2 + getNumWordsAfterSplitInCloze idxs
    let clozePart2 :=
      if i2 ≠ i3 then GetStringOfWordsAndPunctuation l i2 i3 true false false else []
    let len := l.words.length
    let afterCloze :=
      if i3 ≠ len ∨ pyDictContains l.punctuationDict len then
        GetStringOfWordsAndPunctuation l i3 len false false false
      else []
    ⟨beforeCloze, midCloze, afterCloze, clozePart1, clozePart2, inUse⟩

/-- The value returned by cf.GetSimpleClozeFlashcard(): the cached form when
present, otherwise the freshly computed one. -/
def getSimpleValue (cf : ClozeFlashcard) : SimpleClozeFlashcard :=
  cf.simpleClozeFlashcard.getD (computeSimpleClozeFlashcard cf.line cf.wordIndex cf.inUse)

/-- models.ClozeFlashcard.GetSimpleClozeFlashcard with its memoization side
effect: returns the serializable form together with the updated object. -/
def GetSimpleClozeFlashcard (cf : ClozeFlashcard) : SimpleClozeFlashcard × ClozeFlashcard :=
  match cf.simpleClozeFlashcard with
  | some s => (s, cf)
  | none =>
    let s := computeSimpleClozeFlashcard cf.line cf.wordIndex cf.inUse
    (s, { cf with simpleClozeFlashcard := some s })

/-- models.ClozeFlashcard.__eq__: compares the memoized simpleClozeFlashcard
fields.  Python evaluates None == None to True, None against an object to
False, and two cached forms via SimpleClozeFlashcard.__eq__ (five fields). -/
def clozeFlashcardPyEq (a b : ClozeFlashcard) : Bool :=
  match a.simpleClozeFlashcard, b.simpleClozeFlashcard with
  | none, none => true
  | some sa, some sb => scfEq sa sb
  | _, _ => false

/-- models.SimpleClozeFlashcard.wordsInString: the number of whitespace chunks
that are not punctuation-only (regex ^[^\w\s]+$ matches a nonempty chunk all
of whose characters are neither word characters nor whitespace). -/
def wordsInString (s : Str) : Nat :=
  ((pySplit s).filter (fun w =>
    !(!w.isEmpty && w.all (fun c => !(isWordChar c) && !c.isWhitespace)))).length

/-- models.Word.addClozeIdToString: insert the expression tag before the
maximal trailing run of punctuation-like characters (regex (.*?)([^\w\s]*)$,
where the trailing group is a maximal run of characters that are neither word
characters nor whitespace). -/
def addClozeIdToString (wordString : Str) (multiWordExpressionIndex : Nat) : Str :=
  let g2 := (wordString.reverse.takeWhile (fun c => !(isWordChar c) && !c.isWhitespace)).reverse
  let g1 := (wordString.reverse.dropWhile (fun c => !(isWordChar c) && !c.isWhitespace)).reverse
  g1 ++ '_' :: natToDigits multiWordExpressionIndex ++ g2

/-- The stored five-field record shape (external interface of the persisted
flashcard store), with inUse as the string "True"/"False". -/
structure SimpleJsonableClozeFlashcard where
  beforeCloze : Str
  midCloze : Str
  afterCloze : Str
  clozeWordPart1 : Str
  clozeWordPart2 : Str
  inUse : Str
deriving DecidableEq

/-- utils.createClozeFlashcardFromSimpleJsonableDict: re-tag the cloze words,
concatenate the five stored segments into one line string, re-parse it with
addWordsToClassDict=False, and take the blank index to be the number of words
before the cloze. -/
def createClozeFlashcardFromSimpleJsonableDict (clozeFlashcard : SimpleJsonableClozeFlashcard)
    (uniqueWordIdToWordObjects : RegDict) : ClozeFlashcard × RegDict :=
  let clozeWordsPart1 := (pySplit clozeFlashcard.clozeWordPart1).map (addClozeIdToString · 1)
  let clozeWordsPart2 := (pySplit clozeFlashcard.clozeWordPart2).map (addClozeIdToString · 1)
  let lineString :=
    clozeFlashcard.beforeCloze ++ joinSpace clozeWordsPart1 ++ clozeFlashcard.midCloze ++
      joinSpace clozeWordsPart2 ++ clozeFlashcard.afterCloze
  let p := parseSentenceLine lineString uniqueWordIdToWordObjects false
  let wordIndex := wordsInString clozeFlashcard.beforeCloze
  (mkClozeFlashcard p.1 wordIndex (clozeFlashcard.inUse = "True".data), p.2)

/-- utils.ensureInUseClozeFlashcardsPersist, with True for a normal return and
False for the fatal exit(1): every in-use key must be present in the new map
and every in-use serializable form must be found (by five-field equality)
among the new forms for that key. -/
def ensureInUseClozeFlashcardsPersist (inUseClozeFlashcards : List (Str × List ClozeFlashcard))
    (wordToSimpleClozeFlashcards : List (Str × List SimpleClozeFlashcard)) : Bool :=
  inUseClozeFlashcards.all (fun kv =>
    match pyDictLookup wordToSimpleClozeFlashcards kv.1 with
    | none => false
    | some scfs => kv.2.all (fun cf => scfs.any (fun s => scfEq (getSimpleValue cf) s)))

/-- models.Word.thisInstanceInClozeFlashcards: an occurrence is covered when
some flashcard has an equal line (by line id) and the same word index. -/
def thisInstanceInClozeFlashcards (w : WordOcc) (clozeFlashcards : List ClozeFlashcard) : Bool :=
  clozeFlashcards.any (fun cf => linePyEq cf.line w.line && cf.wordIndex = w.index)

/-- Python evaluates `simpleClozeFlashcard in inUseClozeFlashcardsForWord`
(algorithms.preAlgorithmChecks) with a SimpleClozeFlashcard on the left and a
list of ClozeFlashcard objects on the right; both __eq__ methods return
NotImplemented on the type mismatch, so each element comparison falls back to
identity and the membership test is False for every element. -/
def simpleInClozeFlashcardList (_ : SimpleClozeFlashcard) (cfs : List ClozeFlashcard) : Bool :=
  cfs.any (fun _ => false)

/-- One iteration of the fast-path emission loop of
algorithms.preAlgorithmChecks: serialize the unused occurrence and append it
under its own unique word id, unless the (always false, see
simpleInClozeFlashcardList) membership test against the in-use flashcards
succeeds. -/
def fastPathEmitStep (inUseClozeFlashcards : List (Str × List ClozeFlashcard))
    (inUseClozeFlashcardsForWord : List ClozeFlashcard)
    (d : List (Str × List SimpleClozeFlashcard)) (w : WordOcc) :
    List (Str × List SimpleClozeFlashcard) :=
  let currentUniqueWordId := getUniqueWordId w.line (w.line.words.getD w.index ⟨[], none⟩)
  let simpleClozeFlashcard := computeSimpleClozeFlashcard w.line w.index false
  if pyDictContains inUseClozeFlashcards currentUniqueWordId &&
      simpleInClozeFlashcardList simpleClozeFlashcard inUseClozeFlashcardsForWord then
    d
  else pyDictAppendVal d currentUniqueWordId simpleClozeFlashcard

/-- algorithms.preAlgorithmChecks: skip an identity that already has enough
flashcards; otherwise, when all unused occurrences plus the in-use flashcards
fit within the target, emit a flashcard for every unused occurrence (the fast
path) and report toContinue=True; otherwise leave the map unchanged and
report toContinue=False so that the search runs. -/
def preAlgorithmChecks (uniqueWordId : Str)
    (wordToSimpleClozeFlashcards : List (Str × List SimpleClozeFlashcard))
    (numFlashcardsPerWord : Nat)
    (inUseClozeFlashcards : List (Str × List ClozeFlashcard))
    (unusedWords : List WordOcc) :
    List (Str × List SimpleClozeFlashcard) × Bool :=
  let skip : Bool :=
    match pyDictLookup wordToSimpleClozeFlashcards uniqueWordId with
    | some scfs => numFlashcardsPerWord ≤ scfs.length
    | none => false
  if skip then (wordToSimpleClozeFlashcards, true)
  else
    let inUseClozeFlashcardsForWord := (pyDictLookup inUseClozeFlashcards uniqueWordId).getD []
    if unusedWords.length + inUseClozeFlashcardsForWord.length ≤ numFlashcardsPerWord then
      (unusedWords.foldl (fastPathEmitStep inUseClozeFlashcards inUseClozeFlashcardsForWord)
        wordToSimpleClozeFlashcards, true)
    else (wordToSimpleClozeFlashcards, false)

/-- itertools.combinations in itertools enumeration order. -/
def listCombinations {α : Type} : List α → Nat → List (List α)
  | _, 0 => [[]]
  | [], _ + 1 => []
  | x :: xs, k + 1 => (listCombinations xs k).map (x :: ·) ++ listCombinations xs (k + 1)

/-- algorithms.generateNewCombinations: prepend the in-use ids to every
size-n combination of the remaining line ids.  itertools.combinations raises
ValueError on a negative n; that state is unreachable through
mostDifferentAlgorithm (preAlgorithmChecks skips an identity whose flashcard
list already reaches the target), and the model returns no combinations. -/
def generateNewCombinations (lineIds inUseIds : List Str) (n : Int) : List (List Str) :=
  if n < 0 then []
  else (listCombinations lineIds n.toNat).map (fun combination => inUseIds ++ combination)

/-- algorithms.removeInUseIds. -/
def removeInUseIds (combination : List Str) (inUseIds : List Str) : List Str :=
  combination.filter (fun id => !inUseIds.contains id)

/-- models.Line.getUniqueWordIdVector: the frequency vector of the line over
the corpus-wide list of lexical identities (the keys of
uniqueWordIdToWordObjects, in insertion order). -/
def getUniqueWordIdVector (keys : List Str) (l : Line) : List Nat :=
  keys.map (fun k => (l.words.filter (fun w => getUniqueWordId l w = k)).length)

/-- np.dot of two equal-length count vectors. -/
def dotNat (v w : List Nat) : Nat :=
  ((v.zip w).map (fun p => p.1 * p.2)).sum

/-- Sum of squares, the argument of np.linalg.norm. -/
def sumOfSquares (v : List Nat) : Nat := (v.map (fun x => x * x)).sum

/-- np.linalg.norm: the Euclidean magnitude of a count vector. -/
noncomputable def magnitude (v : List Nat) : ℝ := Real.sqrt (sumOfSquares v)

open Classical in
/-- models.Line.getCosDissimilarity: one minus the normalised dot product of
the two word vectors, where the normalised dot product is taken to be 0 when
either magnitude is zero.  The Python memoization cache only stores this pure
value and is omitted. -/
noncomputable def getCosDissimilarity (keys : List Str) (l1 l2 : Line) : ℝ :=
  let vector1 := getUniqueWordIdVector keys l1
  let vector2 := getUniqueWordIdVector keys l2
  let dotProduct : ℝ := (dotNat vector1 vector2 : ℕ)
  let magnitude1 := magnitude vector1
  let magnitude2 := magnitude vector2
  let normalisedDotProduct : ℝ :=
    if magnitude1 = 0 ∨ magnitude2 = 0 then 0 else dotProduct / (magnitude1 * magnitude2)
  1 - normalisedDotProduct

/-- models.Line.getSentenceLengthScore: 1 / exp((4 * length / 25) ** 4). -/
noncomputable def getSentenceLengthScore (l : Line) : ℝ :=
  1 / Real.exp (((4 * l.words.length / 25 : ℝ)) ^ (4 : ℕ))

/-- One pair contribution inside algorithms.findMostDifferentCombination: the
cosine dissimilarity of the two looked-up lines, multiplied by both length
scores when benefitShorterSentences is set.  A failed lookup or missing line
is logged and skipped by the Python code (contributing nothing). -/
noncomputable def pairDissimilarity (keys : List Str) (benefitShorterSentences : Bool)
    (lineIdToWord : List (Str × WordOcc)) (id1 id2 : Str) : ℝ :=
  match pyDictLookup lineIdToWord id1, pyDictLookup lineIdToWord id2 with
  | some w1, some w2 =>
    let cosDissimilarity := getCosDissimilarity keys w1.line w2.line
    if benefitShorterSentences then
      cosDissimilarity * (getSentenceLengthScore w1.line * getSentenceLengthScore w2.line)
    else cosDissimilarity
  | _, _ => 0

/-- The double loop of algorithms.findMostDifferentCombination: sum of the
pair scores over all index pairs i < j of the combination. -/
noncomputable def combinationScore (keys : List Str) (benefitShorterSentences : Bool)
    (lineIdToWord : List (Str × WordOcc)) : List Str → ℝ
  | [] => 0
  | x :: xs =>
    (xs.map (pairDissimilarity keys benefitShorterSentences lineIdToWord x)).sum +
      combinationScore keys benefitShorterSentences lineIdToWord xs

/-- algorithms.findMostDifferentCombination: fold over the candidate
combinations keeping the first one whose score strictly exceeds the best seen
so far, starting from a best score of 0 and no combination. -/
noncomputable def findMostDifferentCombination (keys : List Str)
    (benefitShorterSentences : Bool) (lineIdToWord : List (Str × WordOcc))
    (combinationsOfLines : List (List Str)) : Option (List Str) :=
  (combinationsOfLines.foldl (fun acc combination =>
    let sumOfCosDissimilarities :=
      combinationScore keys benefitShorterSentences lineIdToWord combination
    if acc.1 < sumOfCosDissimilarities then (sumOfCosDissimilarities, some combination)
    else acc) ((0 : ℝ), (none : Option (List Str)))).2

/-- The unused occurrence filter at the head of the per-identity loop of
algorithms.mostDifferentAlgorithm. -/
def unusedWordsFor (words : List WordOcc) (inUseClozeFlashcardsForWord : List ClozeFlashcard) :
    List WordOcc :=
  words.filter (fun w => !thisInstanceInClozeFlashcards w inUseClozeFlashcardsForWord)

/-- The lineIdToWord map of algorithms.mostDifferentAlgorithm: unused
occurrences keyed by line id, then the in-use cloze words inserted (possibly
overwriting) under their line ids. -/
def lineIdToWordFor (unusedWords : List WordOcc)
    (inUseClozeFlashcardsForWord : List ClozeFlashcard) : List (Str × WordOcc) :=
  inUseClozeFlashcardsForWord.foldl
    (fun d cf => pyDictInsert d (lineIdStr cf.line) ⟨cf.line, cf.wordIndex⟩)
    (unusedWords.foldl (fun d w => pyDictInsert d (lineIdStr w.line) w) [])

/-- The in-use line id list of algorithms.mostDifferentAlgorithm. -/
def inUseIdsFor (inUseClozeFlashcardsForWord : List ClozeFlashcard) : List Str :=
  inUseClozeFlashcardsForWord.map (fun cf => lineIdStr cf.line)

/-- The candidate combinations constructed for one identity by
algorithms.mostDifferentAlgorithm. -/
def combosFor (numFlashcardsPerWord : Nat) (unusedWords : List WordOcc)
    (inUseClozeFlashcardsForWord : List ClozeFlashcard) : List (List Str) :=
  let lineIdToWord := lineIdToWordFor unusedWords inUseClozeFlashcardsForWord
  let inUseIds := inUseIdsFor inUseClozeFlashcardsForWord
  let lineIds := (lineIdToWord.map Prod.fst).filter (fun id => !inUseIds.contains id)
  generateNewCombinations lineIds inUseIds
    ((numFlashcardsPerWord : Int) - inUseClozeFlashcardsForWord.length)

/-- The body of the per-identity loop of algorithms.mostDifferentAlgorithm:
run preAlgorithmChecks, and unless it finishes the identity, search for the
best combination and emit a flashcard for every chosen line id that is not
already in use.  When the search returns no combination the error is logged
and the identity is skipped, leaving the flashcard map unchanged. -/
noncomputable def processUniqueWordId (keys : List Str) (benefitShorterSentences : Bool)
    (numFlashcardsPerWord : Nat) (uniqueWordId : Str) (words : List WordOcc)
    (inUseClozeFlashcards : List (Str × List ClozeFlashcard))
    (wordToSimpleClozeFlashcards : List (Str × List SimpleClozeFlashcard)) :
    List (Str × List SimpleClozeFlashcard) :=
  let inUseClozeFlashcardsForWord := (pyDictLookup inUseClozeFlashcards uniqueWordId).getD []
  let unusedWords := unusedWordsFor words inUseClozeFlashcardsForWord
  let pre := preAlgorithmChecks uniqueWordId wordToSimpleClozeFlashcards numFlashcardsPerWord
    inUseClozeFlashcards unusedWords
  if pre.2 then pre.1
  else
    let lineIdToWord := lineIdToWordFor unusedWords inUseClozeFlashcardsForWord
    let inUseIds := inUseIdsFor inUseClozeFlashcardsForWord
    let newCombinations := combosFor numFlashcardsPerWord unusedWords inUseClozeFlashcardsForWord
    match findMostDifferentCombination keys benefitShorterSentences lineIdToWord
      newCombinations with
    | none => pre.1
    | some bestCombination =>
      (removeInUseIds bestCombination inUseIds).foldl (fun d lineId =>
        match pyDictLookup lineIdToWord lineId with
        | none => d
        | some w => pyDictAppendVal d uniqueWordId
            (computeSimpleClozeFlashcard w.line w.index false)) pre.1

/-- The per-identity loop of algorithms.mostDifferentAlgorithm over the
entries of the occurrences index. -/
noncomputable def mostDifferentAlgorithmLoop (keys : List Str)
    (benefitShorterSentences : Bool) (numFlashcardsPerWord : Nat)
    (entries : List (Str × List WordOcc))
    (inUseClozeFlashcards : List (Str × List ClozeFlashcard))
    (wordToSimpleClozeFlashcards : List (Str × List SimpleClozeFlashcard)) :
    List (Str × List SimpleClozeFlashcard) :=
  entries.foldl (fun d kv =>
    processUniqueWordId keys benefitShorterSentences numFlashcardsPerWord kv.1 kv.2
      inUseClozeFlashcards d) wordToSimpleClozeFlashcards

/-- Duplicate detection by five-field flashcard equality, used to express the
zero-duplicates clause of the coverage law. -/
def containsDuplicateSimpleClozeFlashcards : List SimpleClozeFlashcard → Bool
  | [] => false
  | x :: xs => xs.any (scfEq x) || containsDuplicateSimpleClozeFlashcards xs

/-- Maximal leading punctuation run of a chunk (regex group 1). -/
def chunkPre (c : Str) : Str := c.takeWhile isPunctChar

/-- The punctuation-stripped word of a chunk (regex group 2). -/
def chunkCore (c : Str) : Str :=
  ((c.dropWhile isPunctChar).reverse.dropWhile isPunctChar).reverse

/-- Maximal trailing punctuation run of the remainder of a chunk (regex group 3). -/
def chunkPost (c : Str) : Str :=
  ((c.dropWhile isPunctChar).reverse.takeWhile isPunctChar).reverse

/-- A well-behaved whitespace chunk for the exact round trip: nonempty, free
of whitespace, with at least one non-punctuation character (so it does not
become an ALONE mark) and no underscore in its stripped word (so the
multi-word-expression tag machinery leaves it unchanged). -/
def okChunk (c : Str) : Bool :=
  !c.isEmpty && c.all (fun ch => !ch.isWhitespace) && !(chunkCore c).isEmpty &&
    !(chunkCore c).contains '_'

/-- A punctuation-only chunk (parsed as an ALONE mark): nonempty, all
characters in the recognized punctuation set. -/
def aloneChunk (c : Str) : Bool := !c.isEmpty && c.all isPunctChar

/-- Parse a raw line and stringify the resulting Line, the round trip of
claim C10. -/
def parseStringifyRoundTrip (s : Str) : Str :=
  lineIdStr (parseSentenceLine s [] true).1

/-- Corpus line for the round-trip demonstration of claim C2. -/
def roundTripDemoLine : Line := (parseSentenceLine "a b c.".data [] true).1

/-- Serializable form of the flashcard blanking the middle word of
roundTripDemoLine. -/
def roundTripDemoSerialized : SimpleClozeFlashcard :=
  computeSimpleClozeFlashcard roundTripDemoLine 1 false

/-- The stored record corresponding to roundTripDemoSerialized. -/
def roundTripDemoRecord : SimpleJsonableClozeFlashcard :=
  ⟨roundTripDemoSerialized.beforeCloze, roundTripDemoSerialized.midCloze,
    roundTripDemoSerialized.afterCloze, roundTripDemoSerialized.clozePart1,
    roundTripDemoSerialized.clozePart2, "True".data⟩

/-- The flashcard reconstructed from roundTripDemoRecord. -/
def roundTripDemoReconstructed : ClozeFlashcard :=
  (createClozeFlashcardFromSimpleJsonableDict roundTripDemoRecord []).1

/-- Demonstration line "a b." for the cache-equality and persistence claims. -/
def cacheDemoLineA : Line := (parseSentenceLine "a b.".data [] true).1

/-- Demonstration line "c d." for the cache-equality claim. -/
def cacheDemoLineB : Line := (parseSentenceLine "c d.".data [] true).1

/-- An in-use flashcard on cacheDemoLineA for the persistence-check witness. -/
def persistDemoFlashcard : ClozeFlashcard := mkClozeFlashcard cacheDemoLineA 0 true

/-- Line with the expression tokens in the order b, a. -/
def mweOrderDemoLine1 : Line := (parseSentenceLine "b_1 a_1".data [] true).1

/-- Line with the same expression tokens in the order a, b. -/
def mweOrderDemoLine2 : Line := (parseSentenceLine "a_1 b_1".data [] true).1

/-- Occurrence index of the duplicated corpus ["a b.", "a b."]. -/
def dupCorpusReg : RegDict := indexCorpus ["a b.".data, "a b.".data]

/-- The two occurrences of the identity a in the duplicated corpus. -/
def dupCorpusOccs : List WordOcc := (pyDictLookup dupCorpusReg "a".data).getD []

/-- The serializable flashcard blanking a in "a b.". -/
def dupCorpusSerialized : SimpleClozeFlashcard :=
  computeSimpleClozeFlashcard (parseSentenceLine "a b.".data [] true).1 0 false

/-- The single occurrence of a in the one-line corpus ["a b."]. -/
def fastDemoOccs : List WordOcc :=
  (pyDictLookup (indexCorpus ["a b.".data]) "a".data).getD []

/-- A Line with no words and no punctuation (zero-magnitude word vector). -/
def zeroMagnitudeDemoLine : Line := ⟨[], []⟩

/-- One-identity key list for the cosine-dissimilarity demonstrations. -/
def cosDemoKeys : List Str := ["a".data]

/-- The one-word line "a". -/
def cosDemoLine : Line := (parseSentenceLine "a".data [] true).1

/-- Occurrence index of the concrete scenario corpus of claim C4. -/
def scenarioReg : RegDict :=
  indexCorpus ["a b c.".data, "b d e.".data, "b f g.".data]

/-- The identity list of the scenario corpus: a, b, c, d, e, f, g. -/
def scenarioKeys : List Str := scenarioReg.map Prod.fst

/-- The three occurrences of the identity b in the scenario corpus. -/
def scenarioOccs : List WordOcc := (pyDictLookup scenarioReg "b".data).getD []

/-- The parsed first scenario sentence. -/
def scenarioLine1 : Line := (parseSentenceLine "a b c.".data [] true).1

/-- The parsed second scenario sentence. -/
def scenarioLine2 : Line := (parseSentenceLine "b d e.".data [] true).1

/-- The parsed third scenario sentence. -/
def scenarioLine3 : Line := (parseSentenceLine "b f g.".data [] true).1

/-- Line id of the first scenario sentence. -/
def scenarioId1 : Str := lineIdStr scenarioLine1

/-- Line id of the second scenario sentence. -/
def scenarioId2 : Str := lineIdStr scenarioLine2

/-- Line id of the third scenario sentence. -/
def scenarioId3 : Str := lineIdStr scenarioLine3

/-- The lineIdToWord map built for identity b in the scenario. -/
def scenarioLineIdToWord : List (Str × WordOcc) :=
  lineIdToWordFor (unusedWordsFor scenarioOccs []) []

/-- The candidate combinations built for identity b in the scenario. -/
def scenarioCombos : List (List Str) :=
  combosFor 2 (unusedWordsFor scenarioOccs []) []

/-- The lineIdToWord map built for identity a in the duplicated corpus: the
two occurrences share one line id, so the map has a single entry. -/
def dupLineIdToWord : List (Str × WordOcc) :=
  lineIdToWordFor (unusedWordsFor dupCorpusOccs []) []

/-- The candidate combinations for identity a in the duplicated corpus with
target 1: one singleton combination. -/
def dupCombos : List (List Str) := combosFor 1 (unusedWordsFor dupCorpusOccs []) []

/-- Serializable flashcard blanking b in the first scenario sentence. -/
def scenarioSerialized1 : SimpleClozeFlashcard :=
  computeSimpleClozeFlashcard scenarioLine1 1 false

/-- Serializable flashcard blanking b in the second scenario sentence. -/
def scenarioSerialized2 : SimpleClozeFlashcard :=
  computeSimpleClozeFlashcard scenarioLine2 0 false

/-- The punctuation entry recorded by parsing one word chunk at its position:
the optional BEFORE run followed by the optional AFTER run. -/
def chunkMarks (c : Str) : List Punctuation :=
  (if (chunkPre c).isEmpty then [] else [⟨chunkPre c, .BEFORE⟩]) ++
    (if (chunkPost c).isEmpty then [] else [⟨chunkPost c, .AFTER⟩])

/-- The punctuation map recorded by parsing a run of word chunks starting at
word position k0: one entry per chunk, in order. -/
def chunkMarksDict (k0 : Nat) : List Str → List (Nat × List Punctuation)
  | [] => []
  | c :: cs => (k0, chunkMarks c) :: chunkMarksDict (k0 + 1) cs

/-- Space-joined chunks as the stringifier emits them from word position i0:
every chunk after position 0 is preceded by one space. -/
def sepJoin (i0 : Nat) : List Str → Str
  | [] => []
  | c :: cs => (if 0 < i0 then [' '] else []) ++ c ++ sepJoin (i0 + 1) cs

/-- The identity list of the duplicated corpus: a, b. -/
def dupCorpusKeys : List Str := dupCorpusReg.map Prod.fst

/-- The shared line id of the duplicated corpus line "a b.". -/
def dupLineId : Str := lineIdStr (parseSentenceLine "a b.".data [] true).1

/-- The cross-type membership test of the fast path is False on every list. -/
theorem simpleInClozeFlashcardList_eq_false (s : SimpleClozeFlashcard)
    (cfs : List ClozeFlashcard) : simpleInClozeFlashcardList s cfs = false := by
  induction cfs with
  | nil => rfl
  | cons c cs ih => simp [simpleInClozeFlashcardList]

/-- Appending a value under a key makes its list grow by exactly that value. -/
theorem pyDictLookup_appendVal_self {α β : Type} [DecidableEq α]
    (d : List (α × List β)) (k : α) (v : β) :
    pyDictLookup (pyDictAppendVal d k v) k = some ((pyDictLookup d k).getD [] ++ [v]) := by
  induction d with
  | nil => simp [pyDictAppendVal, pyDictLookup]
  | cons e rest ih =>
    obtain ⟨k0, l0⟩ := e
    by_cases h : k0 = k
    · subst h
      simp [pyDictAppendVal, pyDictLookup]
    · simp [pyDictAppendVal, pyDictLookup, h, ih]

/-- C1.  For every lexical identity key present in the in-use flashcard index,
ensureInUseClozeFlashcardsPersist returns normally (True) exactly when the key
is present in the newly generated flashcard map and every in-use flashcard of
that key has its five-field serializable form equal (by the five-field
equality that ignores inUse) to some flashcard in the new list for that key;
any miss makes the check fatal (False, the Python exit(1)). -/
theorem ensureInUseClozeFlashcardsPersist_spec :
    ∀ (inUse : List (Str × List ClozeFlashcard))
      (new : List (Str × List SimpleClozeFlashcard)),
      ensureInUseClozeFlashcardsPersist inUse new = true ↔
        ∀ kv ∈ inUse, ∃ scfs, pyDictLookup new kv.1 = some scfs ∧
          ∀ cf ∈ kv.2, ∃ s ∈ scfs, scfEq (getSimpleValue cf) s = true := by
  intro inUse new
  rw [ensureInUseClozeFlashcardsPersist, List.all_eq_true]
  refine forall_congr' fun kv => forall_congr' fun _ => ?_
  cases h : pyDictLookup new kv.1 with
  | none => simp
  | some scfs => simp [List.all_eq_true, List.any_eq_true]

/-- Witness for C1: a concrete in-use flashcard map that survives into a
concrete new map (the inUse flag being ignored by the equality). -/
theorem ensureInUseClozeFlashcardsPersist_spec_witness :
    ensureInUseClozeFlashcardsPersist
      [("a".data, [persistDemoFlashcard])]
      [("a".data, [computeSimpleClozeFlashcard cacheDemoLineA 0 false])] = true :=
  (ensureInUseClozeFlashcardsPersist_spec _ _).mpr (by decide)

/-- C2 (code bug).  Serializing the flashcard that blanks b in the parsed
corpus line "a b c." yields the five segments (a, empty, c., b, empty);
createClozeFlashcardFromSimpleJsonableDict concatenates the segments without
any separating space into the line string "ab_1c.", which parses to the single
word ab, while the reconstructed blank index is 1.  The blank index therefore
lies outside the reconstructed word list (the Python re-serialization raises
IndexError), so re-serializing cannot reproduce the original five-part form:
the round-trip law fails even for a single-token blank. -/
theorem roundTrip_single_token_fails :
    roundTripDemoSerialized =
      ⟨"a".data, [], "c.".data, "b".data, [], false⟩ ∧
    roundTripDemoReconstructed.line.words.map (fun w => w.thisWordString) = ["ab".data] ∧
    roundTripDemoReconstructed.wordIndex = 1 ∧
    roundTripDemoReconstructed.line.words.length ≤ roundTripDemoReconstructed.wordIndex := by
  decide

/-- C6 (code bug).  MultiWordExpression.getUniqueWordId joins the member
words in sentence order, not sorted: the same two-token expression tagged in
the orders b a and a b receives the two distinct identities "b a" and "a b",
and the corpus index therefore keeps the two occurrences under two different
keys instead of grouping them. -/
theorem mwe_uniqueWordId_order_dependent :
    mweOrderDemoLine1.words.map (fun w => getUniqueWordId mweOrderDemoLine1 w) =
      ["b a".data, "b a".data] ∧
    mweOrderDemoLine2.words.map (fun w => getUniqueWordId mweOrderDemoLine2 w) =
      ["a b".data, "a b".data] ∧
    (indexCorpus ["b_1 a_1".data, "a_1 b_1".data]).map Prod.fst =
      ["b a".data, "a b".data] ∧
    ("b a".data : Str) ≠ "a b".data := by
  decide

/-- C7.  Reconstructing a flashcard from a stored five-field record
(createClozeFlashcardFromSimpleJsonableDict, which parses with
addWordsToClassDict=False) returns the corpus-wide occurrences index
unchanged: no key is added and no occurrence list grows. -/
theorem createClozeFlashcard_preserves_index :
    ∀ (record : SimpleJsonableClozeFlashcard) (reg : RegDict),
      (createClozeFlashcardFromSimpleJsonableDict record reg).2 = reg := by
  intro record reg
  simp [createClozeFlashcardFromSimpleJsonableDict, parseSentenceLine]

/-- C9.  ClozeFlashcard equality reads the memoized simpleClozeFlashcard
field without computing it: the constructor leaves the field None, two
flashcards whose forms were never computed compare None to None and are
therefore equal regardless of their lines and blank indices, and only after
GetSimpleClozeFlashcard has been called does equality compare the five-field
serializable forms. -/
theorem clozeFlashcard_eq_reads_cache :
    (∀ a b : ClozeFlashcard, a.simpleClozeFlashcard = none →
      b.simpleClozeFlashcard = none → clozeFlashcardPyEq a b = true) ∧
    (∀ (l : Line) (i : Nat) (u : Bool),
      (mkClozeFlashcard l i u).simpleClozeFlashcard = none) ∧
    (∀ (a b : ClozeFlashcard) (sa sb : SimpleClozeFlashcard),
      a.simpleClozeFlashcard = some sa → b.simpleClozeFlashcard = some sb →
      clozeFlashcardPyEq a b = scfEq sa sb) := by
  refine ⟨fun a b ha hb => ?_, fun l i u => rfl, fun a b sa sb ha hb => ?_⟩ <;>
    simp [clozeFlashcardPyEq, ha, hb]

/-- Witness for C9: two fresh flashcards over different sentences and indices
compare equal, and compare unequal once their serializable forms have been
computed. -/
theorem clozeFlashcard_eq_reads_cache_witness :
    clozeFlashcardPyEq (mkClozeFlashcard cacheDemoLineA 0 false)
      (mkClozeFlashcard cacheDemoLineB 1 true) = true ∧
    clozeFlashcardPyEq
      (GetSimpleClozeFlashcard (mkClozeFlashcard cacheDemoLineA 0 false)).2
      (GetSimpleClozeFlashcard (mkClozeFlashcard cacheDemoLineB 1 true)).2 = false :=
  ⟨clozeFlashcard_eq_reads_cache.1 _ _ rfl rfl, by
    rw [clozeFlashcard_eq_reads_cache.2.2 _ _ _ _ rfl rfl]
    decide⟩

/-- C3 counterexample.  In the duplicated corpus ["a b.", "a b."] the identity
a has two unused occurrences and no in-use flashcards, so with target 3 the
fast path applies (2 + 0 <= 3); the emitted list for a then holds two entries
that are equal under the five-field flashcard equality, contradicting the
zero-duplicates clause of the claim. -/
theorem preAlgorithmChecks_duplicate_counterexample :
    dupCorpusOccs.length + ([] : List ClozeFlashcard).length ≤ 3 ∧
    (preAlgorithmChecks "a".data [] 3 [] dupCorpusOccs).2 = true ∧
    pyDictLookup (preAlgorithmChecks "a".data [] 3 [] dupCorpusOccs).1 "a".data =
      some [dupCorpusSerialized, dupCorpusSerialized] ∧
    containsDuplicateSimpleClozeFlashcards
      [dupCorpusSerialized, dupCorpusSerialized] = true := by
  decide

/-- Fast-path emission: folding the emit step over occurrences of one
identity appends exactly one serialized flashcard per occurrence, in order,
to the list of that identity (the membership test against the in-use
flashcards being always False). -/
theorem fastPathEmitStep_foldl (uid : Str) (inUse : List (Str × List ClozeFlashcard))
    (inUseForWord : List ClozeFlashcard) :
    ∀ (ws : List WordOcc) (d : List (Str × List SimpleClozeFlashcard)),
      (∀ w ∈ ws, getUniqueWordId w.line (w.line.words.getD w.index ⟨[], none⟩) = uid) →
      (pyDictLookup (ws.foldl (fastPathEmitStep inUse inUseForWord) d) uid).getD [] =
        (pyDictLookup d uid).getD [] ++
          ws.map (fun w => computeSimpleClozeFlashcard w.line w.index false) := by
  intro ws
  induction ws with
  | nil => intro d _; simp
  | cons w rest ih =>
    intro d hids
    have hw : getUniqueWordId w.line (w.line.words.getD w.index ⟨[], none⟩) = uid :=
      hids w (List.mem_cons_self w rest)
    have hstep : fastPathEmitStep inUse inUseForWord d w =
        pyDictAppendVal d uid (computeSimpleClozeFlashcard w.line w.index false) := by
      rw [fastPathEmitStep]
      simp only [simpleInClozeFlashcardList_eq_false, Bool.and_false, if_neg Bool.false_ne_true,
        hw]
    rw [List.foldl_cons, hstep, ih _ (fun x hx => hids x (List.mem_cons_of_mem w hx)),
      pyDictLookup_appendVal_self]
    simp

/-- C3 (amended).  For every lexical identity whose unused occurrences plus
in-use flashcards fit within the target, no combinatorial search runs
(toContinue is True) and the emitted list for that identity consists of the
already in-use flashcard forms followed by exactly one serialized flashcard
per unused occurrence, in occurrence order — so the count is exactly
unused + in-use.  (Entries can repeat when two occurrences serialize to equal
five-field forms, e.g. under verbatim-duplicated corpus lines; the
zero-duplicates clause of the original claim fails there.)  The hypotheses
state the pipeline invariants: every occurrence belongs to the identity, and
the flashcard map initially carries exactly the serialized in-use flashcards
of the identity, as createInitialClozeFlashcards produces. -/
theorem preAlgorithmChecks_fast_path_amended :
    ∀ (uniqueWordId : Str) (dict : List (Str × List SimpleClozeFlashcard))
      (n : Nat) (inUse : List (Str × List ClozeFlashcard)) (unusedWords : List WordOcc),
      (∀ w ∈ unusedWords,
        getUniqueWordId w.line (w.line.words.getD w.index ⟨[], none⟩) = uniqueWordId) →
      (pyDictLookup dict uniqueWordId).getD [] =
        ((pyDictLookup inUse uniqueWordId).getD []).map getSimpleValue →
      unusedWords.length + ((pyDictLookup inUse uniqueWordId).getD []).length ≤ n →
      (preAlgorithmChecks uniqueWordId dict n inUse unusedWords).2 = true ∧
      (pyDictLookup (preAlgorithmChecks uniqueWordId dict n inUse unusedWords).1
          uniqueWordId).getD [] =
        ((pyDictLookup inUse uniqueWordId).getD []).map getSimpleValue ++
          unusedWords.map (fun w => computeSimpleClozeFlashcard w.line w.index false) := by
  intro uid dict n inUse unusedWords hids hinit hcount
  rw [preAlgorithmChecks]
  cases hd : pyDictLookup dict uid with
  | none =>
    have hfold := fastPathEmitStep_foldl uid inUse
      ((pyDictLookup inUse uid).getD []) unusedWords dict hids
    simp only [hd, Option.getD_none] at hinit
    simp only [hd]
    rw [if_neg (by simp), if_pos hcount]
    refine ⟨rfl, ?_⟩
    rw [hfold, hd]
    simp [← hinit]
  | some scfs =>
    simp only [hd, Option.getD_some] at hinit
    by_cases hskip : n ≤ scfs.length
    · have hlen : scfs.length = ((pyDictLookup inUse uid).getD []).length := by
        rw [hinit, List.length_map]
      have h1 : ((pyDictLookup inUse uid).getD []).length ≤ n := by omega
      have h2 : unusedWords.length = 0 := by omega
      have h3 : unusedWords = [] := List.length_eq_zero.mp h2
      simp only [hd]
      rw [if_pos (by simpa using hskip)]
      subst h3
      simp [hd, hinit]
    · have hfold := fastPathEmitStep_foldl uid inUse
        ((pyDictLookup inUse uid).getD []) unusedWords dict hids
      simp only [hd]
      rw [if_neg (by simpa using hskip), if_pos hcount]
      refine ⟨rfl, ?_⟩
      rw [hfold, hd]
      simp [hinit]

/-- Witness for C3: in the one-line corpus ["a b."] with target 1 and no
in-use flashcards, the fast path emits exactly the one flashcard that blanks
a. -/
theorem preAlgorithmChecks_fast_path_amended_witness :
    (preAlgorithmChecks "a".data [] 1 [] fastDemoOccs).2 = true ∧
    (pyDictLookup (preAlgorithmChecks "a".data [] 1 [] fastDemoOccs).1 "a".data).getD [] =
      [computeSimpleClozeFlashcard (parseSentenceLine "a b.".data [] true).1 0 false] := by
  have h := preAlgorithmChecks_fast_path_amended "a".data [] 1 [] fastDemoOccs
    (by decide) (by decide) (by decide)
  exact ⟨h.1, by rw [h.2]; decide⟩

/-- C5 counterexample.  Against the one-word line "a", the empty-content line
has a zero-magnitude word vector, and getCosDissimilarity returns 1 (the
normalised dot product is set to 0 and the function returns 1 - 0), not the 0
claimed by the specification. -/
theorem getCosDissimilarity_zero_magnitude_counterexample :
    getCosDissimilarity cosDemoKeys cosDemoLine zeroMagnitudeDemoLine = 1 ∧
    (1 : ℝ) ≠ 0 := by
  constructor
  · have hvec : getUniqueWordIdVector cosDemoKeys zeroMagnitudeDemoLine = [0] := rfl
    have hmag : magnitude (getUniqueWordIdVector cosDemoKeys zeroMagnitudeDemoLine) = 0 := by
      rw [hvec]
      simp [magnitude, sumOfSquares]
    simp [getCosDissimilarity, hmag]
  · norm_num

/-- C5 (amended).  For every pair of lines, getCosDissimilarity returns
1 - dot(v1,v2) / (mag(v1) * mag(v2)) over their lexical-identity frequency
vectors when both magnitudes are nonzero, and returns 1 (not 0, and not an
error) when either vector has zero magnitude. -/
theorem getCosDissimilarity_amended :
    ∀ (keys : List Str) (l1 l2 : Line),
      (magnitude (getUniqueWordIdVector keys l1) ≠ 0 →
        magnitude (getUniqueWordIdVector keys l2) ≠ 0 →
        getCosDissimilarity keys l1 l2 =
          1 - (dotNat (getUniqueWordIdVector keys l1) (getUniqueWordIdVector keys l2) : ℝ) /
            (magnitude (getUniqueWordIdVector keys l1) *
              magnitude (getUniqueWordIdVector keys l2))) ∧
      ((magnitude (getUniqueWordIdVector keys l1) = 0 ∨
        magnitude (getUniqueWordIdVector keys l2) = 0) →
        getCosDissimilarity keys l1 l2 = 1) := by
  intro keys l1 l2
  constructor
  · intro h1 h2
    simp only [getCosDissimilarity]
    rw [if_neg (not_or.mpr ⟨h1, h2⟩)]
  · intro h
    simp only [getCosDissimilarity]
    rw [if_pos h]
    ring

/-- Witness for C5: for the one-word line "a" against itself both magnitudes
are 1, and the dissimilarity equals the stated formula. -/
theorem getCosDissimilarity_amended_witness :
    getCosDissimilarity cosDemoKeys cosDemoLine cosDemoLine =
      1 - (dotNat (getUniqueWordIdVector cosDemoKeys cosDemoLine)
          (getUniqueWordIdVector cosDemoKeys cosDemoLine) : ℝ) /
        (magnitude (getUniqueWordIdVector cosDemoKeys cosDemoLine) *
          magnitude (getUniqueWordIdVector cosDemoKeys cosDemoLine)) := by
  have hv : getUniqueWordIdVector cosDemoKeys cosDemoLine = [1] := rfl
  have hm : magnitude (getUniqueWordIdVector cosDemoKeys cosDemoLine) ≠ 0 := by
    rw [hv]
    simp [magnitude, sumOfSquares]
  exact (getCosDissimilarity_amended cosDemoKeys cosDemoLine cosDemoLine).1 hm hm

/-- A combination with a single line id has no pairs, so its score is 0. -/
theorem combinationScore_singleton (keys : List Str) (benefit : Bool)
    (d : List (Str × WordOcc)) (x : Str) :
    combinationScore keys benefit d [x] = 0 := by
  simp [combinationScore]

/-- Behaviour of the best-combination fold of findMostDifferentCombination:
either no candidate strictly beats the starting accumulator, which is then
returned unchanged, or the result is the first candidate strictly beating
the accumulator and every earlier candidate, with no later candidate
strictly beating it. -/
theorem findMostDifferentCombination_foldl_spec (keys : List Str) (benefit : Bool)
    (d : List (Str × WordOcc)) :
    ∀ (combos : List (List Str)) (acc : ℝ × Option (List Str)),
      (combos.foldl (fun acc combination =>
          let s := combinationScore keys benefit d combination
          if acc.1 < s then (s, some combination) else acc) acc = acc ∧
        ∀ c ∈ combos, combinationScore keys benefit d c ≤ acc.1) ∨
      (∃ pre c post, combos = pre ++ c :: post ∧
        combos.foldl (fun acc combination =>
          let s := combinationScore keys benefit d combination
          if acc.1 < s then (s, some combination) else acc) acc =
            (combinationScore keys benefit d c, some c) ∧
        acc.1 < combinationScore keys benefit d c ∧
        (∀ c2 ∈ pre,
          combinationScore keys benefit d c2 < combinationScore keys benefit d c) ∧
        (∀ c2 ∈ post,
          combinationScore keys benefit d c2 ≤ combinationScore keys benefit d c)) := by
  intro combos
  induction combos with
  | nil =>
    intro acc
    exact Or.inl ⟨rfl, by simp⟩
  | cons c0 rest ih =>
    intro acc
    by_cases h : acc.1 < combinationScore keys benefit d c0
    · have hstep : (c0 :: rest).foldl (fun acc combination =>
          let s := combinationScore keys benefit d combination
          if acc.1 < s then (s, some combination) else acc) acc =
          rest.foldl (fun acc combination =>
            let s := combinationScore keys benefit d combination
            if acc.1 < s then (s, some combination) else acc)
            (combinationScore keys benefit d c0, some c0) := by
        rw [List.foldl_cons]
        simp only [if_pos h]
      rcases ih (combinationScore keys benefit d c0, some c0) with ⟨heq, hle⟩ | hr
      · refine Or.inr ⟨[], c0, rest, rfl, ?_, h, by simp, ?_⟩
        · rw [hstep, heq]
        · intro c2 hc2
          exact hle c2 hc2
      · obtain ⟨pre, c, post, hsplit, heq, hacc, hpre, hpost⟩ := hr
        refine Or.inr ⟨c0 :: pre, c, post, by rw [hsplit, List.cons_append], ?_, lt_trans h hacc, ?_, hpost⟩
        · rw [hstep, heq]
        · intro c2 hc2
          rcases List.mem_cons.mp hc2 with h0 | hmem
          · rw [h0]
            exact hacc
          · exact hpre c2 hmem
    · have hstep : (c0 :: rest).foldl (fun acc combination =>
          let s := combinationScore keys benefit d combination
          if acc.1 < s then (s, some combination) else acc) acc =
          rest.foldl (fun acc combination =>
            let s := combinationScore keys benefit d combination
            if acc.1 < s then (s, some combination) else acc) acc := by
        rw [List.foldl_cons]
        simp only [if_neg h]
      rcases ih acc with ⟨heq, hle⟩ | hr
      · refine Or.inl ⟨by rw [hstep, heq], ?_⟩
        intro c2 hc2
        rcases List.mem_cons.mp hc2 with h0 | hmem
        · rw [h0]
          exact le_of_not_lt h
        · exact hle c2 hmem
      · obtain ⟨pre, c, post, hsplit, heq, hacc, hpre, hpost⟩ := hr
        refine Or.inr ⟨c0 :: pre, c, post, by rw [hsplit, List.cons_append], by rw [hstep, heq], hacc, ?_, hpost⟩
        intro c2 hc2
        rcases List.mem_cons.mp hc2 with h0 | hmem
        · rw [h0]
          exact lt_of_le_of_lt (le_of_not_lt h) hacc
        · exact hpre c2 hmem

/-- Cosine dissimilarity evaluates to 2/3 whenever both vectors have squared
magnitude 3 and the dot product is 1 (the situation of every sentence pair in
the concrete scenario). -/
theorem getCosDissimilarity_third (keys : List Str) (l1 l2 : Line)
    (h1 : sumOfSquares (getUniqueWordIdVector keys l1) = 3)
    (h2 : sumOfSquares (getUniqueWordIdVector keys l2) = 3)
    (hd : dotNat (getUniqueWordIdVector keys l1) (getUniqueWordIdVector keys l2) = 1) :
    getCosDissimilarity keys l1 l2 = 2 / 3 := by
  have hs3 : Real.sqrt 3 ≠ 0 := by
    rw [Real.sqrt_ne_zero']
    norm_num
  have hm1 : magnitude (getUniqueWordIdVector keys l1) = Real.sqrt 3 := by
    rw [magnitude, h1]
    norm_num
  have hm2 : magnitude (getUniqueWordIdVector keys l2) = Real.sqrt 3 := by
    rw [magnitude, h2]
    norm_num
  simp only [getCosDissimilarity, hm1, hm2, hd]
  rw [if_neg (not_or.mpr ⟨hs3, hs3⟩), Real.mul_self_sqrt (by norm_num)]
  norm_num

/-- Pair score of the first and second scenario sentences. -/
theorem scenario_pair12 :
    pairDissimilarity scenarioKeys false scenarioLineIdToWord scenarioId1 scenarioId2 =
      2 / 3 := by
  have hl1 : pyDictLookup scenarioLineIdToWord scenarioId1 = some ⟨scenarioLine1, 1⟩ := by
    decide
  have hl2 : pyDictLookup scenarioLineIdToWord scenarioId2 = some ⟨scenarioLine2, 0⟩ := by
    decide
  simp only [pairDissimilarity, hl1, hl2, Bool.false_eq_true, if_false]
  exact getCosDissimilarity_third _ _ _ (by decide) (by decide) (by decide)

/-- Pair score of the first and third scenario sentences. -/
theorem scenario_pair13 :
    pairDissimilarity scenarioKeys false scenarioLineIdToWord scenarioId1 scenarioId3 =
      2 / 3 := by
  have hl1 : pyDictLookup scenarioLineIdToWord scenarioId1 = some ⟨scenarioLine1, 1⟩ := by
    decide
  have hl2 : pyDictLookup scenarioLineIdToWord scenarioId3 = some ⟨scenarioLine3, 0⟩ := by
    decide
  simp only [pairDissimilarity, hl1, hl2, Bool.false_eq_true, if_false]
  exact getCosDissimilarity_third _ _ _ (by decide) (by decide) (by decide)

/-- Pair score of the second and third scenario sentences. -/
theorem scenario_pair23 :
    pairDissimilarity scenarioKeys false scenarioLineIdToWord scenarioId2 scenarioId3 =
      2 / 3 := by
  have hl1 : pyDictLookup scenarioLineIdToWord scenarioId2 = some ⟨scenarioLine2, 0⟩ := by
    decide
  have hl2 : pyDictLookup scenarioLineIdToWord scenarioId3 = some ⟨scenarioLine3, 0⟩ := by
    decide
  simp only [pairDissimilarity, hl1, hl2, Bool.false_eq_true, if_false]
  exact getCosDissimilarity_third _ _ _ (by decide) (by decide) (by decide)

/-- The search of the concrete scenario returns the combination of the first
two b-sentences: all three candidate pairs score 2/3, and the strict
improvement test keeps the first candidate. -/
theorem scenario_find_eq :
    findMostDifferentCombination scenarioKeys false scenarioLineIdToWord scenarioCombos =
      some [scenarioId1, scenarioId2] := by
  have hc : scenarioCombos =
      [[scenarioId1, scenarioId2], [scenarioId1, scenarioId3], [scenarioId2, scenarioId3]] := by
    decide
  have hs12 : combinationScore scenarioKeys false scenarioLineIdToWord
      [scenarioId1, scenarioId2] = 2 / 3 := by
    simp [combinationScore, scenario_pair12]
  have hs13 : combinationScore scenarioKeys false scenarioLineIdToWord
      [scenarioId1, scenarioId3] = 2 / 3 := by
    simp [combinationScore, scenario_pair13]
  have hs23 : combinationScore scenarioKeys false scenarioLineIdToWord
      [scenarioId2, scenarioId3] = 2 / 3 := by
    simp [combinationScore, scenario_pair23]
  have hscore : ∀ x ∈ scenarioCombos,
      combinationScore scenarioKeys false scenarioLineIdToWord x = 2 / 3 := by
    intro x hx
    rw [hc] at hx
    simp only [List.mem_cons, List.not_mem_nil, or_false] at hx
    rcases hx with h | h | h
    · rw [h, hs12]
    · rw [h, hs13]
    · rw [h, hs23]
  have hspec := findMostDifferentCombination_foldl_spec scenarioKeys false
    scenarioLineIdToWord scenarioCombos ((0 : ℝ), none)
  rw [findMostDifferentCombination]
  rcases hspec with ⟨heq, hle⟩ | ⟨pre, c, post, hsplit, heq, hacc, hpre, hpost⟩
  · exfalso
    have h1 := hle [scenarioId1, scenarioId2] (by rw [hc]; exact List.mem_cons_self _ _)
    rw [hs12] at h1
    norm_num at h1
  · have hcmem : c ∈ scenarioCombos := by
      rw [hsplit]
      exact List.mem_append_right pre (List.mem_cons_self c post)
    have hcscore := hscore c hcmem
    have hprenil : pre = [] := by
      cases pre with
      | nil => rfl
      | cons p ps =>
        exfalso
        have hpmem : p ∈ scenarioCombos := by
          rw [hsplit]
          exact List.mem_append_left _ (List.mem_cons_self p ps)
        have hplt := hpre p (List.mem_cons_self p ps)
        rw [hscore p hpmem, hcscore] at hplt
        exact lt_irrefl _ hplt
    subst hprenil
    rw [hc] at hsplit
    simp only [List.nil_append] at hsplit
    have hcval : c = [scenarioId1, scenarioId2] := by
      injection hsplit.symm with h1 h2
    rw [heq, hcval]

/-- In the duplicated corpus the only candidate combination is a singleton,
which scores 0, so the search returns None. -/
theorem dup_find_eq_none :
    findMostDifferentCombination dupCorpusKeys false dupLineIdToWord dupCombos = none := by
  rw [show dupCombos = [[dupLineId]] from by decide]
  rw [findMostDifferentCombination, List.foldl_cons, List.foldl_nil]
  simp [combinationScore_singleton]

/-- C4 counterexample.  For the duplicated corpus (identity a, target 1) the
candidate list is the single singleton combination of the shared line id; a
singleton has no pairs, so every candidate scores 0, and the maximal-scoring
candidate is the singleton itself, in first position.  Yet
findMostDifferentCombination returns None — it only ever returns a candidate
whose score strictly exceeds the initial best score 0 — so it does not return
the maximal (first) candidate as the claim states. -/
theorem findMostDifferentCombination_zero_score_counterexample :
    dupCombos = [[dupLineId]] ∧
    findMostDifferentCombination dupCorpusKeys false dupLineIdToWord dupCombos = none :=
  ⟨by decide, dup_find_eq_none⟩

/-- C4 (amended).  findMostDifferentCombination returns the first candidate
combination whose summed pairwise dissimilarity (over all unordered pairs of
the full candidate set, in-use ids included) strictly exceeds 0 and every
other candidate score: when it returns a combination, that combination scores
strictly more than 0, at least as much as every candidate, and strictly more
than every candidate before it in enumeration order (ties keep the first
found); when every candidate scores at most 0 — for instance singleton
combinations, whose score is 0 — it returns None instead of a maximal
candidate.  In the concrete scenario (corpus lines a b c. / b d e. / b f g.,
identity b, target 2, no in-use cards, all candidate pairs scoring equally)
the selector emits exactly the flashcards of the first two b-sentences in
corpus order. -/
theorem findMostDifferentCombination_amended :
    (∀ (keys : List Str) (benefit : Bool) (d : List (Str × WordOcc))
      (combos : List (List Str)) (best : List Str),
      findMostDifferentCombination keys benefit d combos = some best →
        0 < combinationScore keys benefit d best ∧
        (∀ c ∈ combos, combinationScore keys benefit d c ≤
          combinationScore keys benefit d best) ∧
        ∃ pre post, combos = pre ++ best :: post ∧
          ∀ c ∈ pre, combinationScore keys benefit d c <
            combinationScore keys benefit d best) ∧
    (∀ (keys : List Str) (benefit : Bool) (d : List (Str × WordOcc))
      (combos : List (List Str)),
      findMostDifferentCombination keys benefit d combos = none →
        ∀ c ∈ combos, combinationScore keys benefit d c ≤ 0) ∧
    processUniqueWordId scenarioKeys false 2 "b".data scenarioOccs [] [] =
      [("b".data, [scenarioSerialized1, scenarioSerialized2])] := by
  refine ⟨?_, ?_, ?_⟩
  · intro keys benefit d combos best h
    rw [findMostDifferentCombination] at h
    rcases findMostDifferentCombination_foldl_spec keys benefit d combos ((0 : ℝ), none) with
      ⟨heq, hle⟩ | ⟨pre, c, post, hsplit, heq, hacc, hpre, hpost⟩
    · rw [heq] at h
      exact absurd h (by simp)
    · rw [heq] at h
      have hcb : c = best := by
        simpa using h
      subst hcb
      refine ⟨hacc, ?_, pre, post, hsplit, hpre⟩
      intro x hx
      rw [hsplit] at hx
      rcases List.mem_append.mp hx with hx | hx
      · exact le_of_lt (hpre x hx)
      · rcases List.mem_cons.mp hx with hx | hx
        · rw [hx]
        · exact hpost x hx
  · intro keys benefit d combos h
    rw [findMostDifferentCombination] at h
    rcases findMostDifferentCombination_foldl_spec keys benefit d combos ((0 : ℝ), none) with
      ⟨heq, hle⟩ | ⟨pre, c, post, hsplit, heq, hacc, hpre, hpost⟩
    · exact hle
    · rw [heq] at h
      exact absurd h (by simp)
  · have hpre0 : preAlgorithmChecks "b".data [] 2 [] (unusedWordsFor scenarioOccs []) =
        ([], false) := by
      decide
    simp only [processUniqueWordId, pyDictLookup, Option.getD_none, hpre0]
    rw [show lineIdToWordFor (unusedWordsFor scenarioOccs []) [] = scenarioLineIdToWord
      from rfl]
    rw [show combosFor 2 (unusedWordsFor scenarioOccs []) [] = scenarioCombos from rfl]
    rw [scenario_find_eq]
    decide

/-- Witness for C4: in the concrete scenario the returned combination scores
strictly more than 0 (2/3, the shared pair score). -/
theorem findMostDifferentCombination_amended_witness :
    0 < combinationScore scenarioKeys false scenarioLineIdToWord
      [scenarioId1, scenarioId2] :=
  (findMostDifferentCombination_amended.1 scenarioKeys false scenarioLineIdToWord
    scenarioCombos [scenarioId1, scenarioId2] scenario_find_eq).1

/-- When preAlgorithmChecks reports toContinue=False (the search must run) it
has not modified the flashcard map. -/
theorem preAlgorithmChecks_false_leaves_dict (uid : Str)
    (dict : List (Str × List SimpleClozeFlashcard)) (n : Nat)
    (inUse : List (Str × List ClozeFlashcard)) (unusedWords : List WordOcc)
    (h : (preAlgorithmChecks uid dict n inUse unusedWords).2 = false) :
    (preAlgorithmChecks uid dict n inUse unusedWords).1 = dict := by
  unfold preAlgorithmChecks at h ⊢
  cases hl : pyDictLookup dict uid with
  | none =>
    by_cases hc : unusedWords.length + ((pyDictLookup inUse uid).getD []).length ≤ n
    · simp [hl, hc] at h
    · simp [hl, hc]
  | some scfs =>
    by_cases hn : n ≤ scfs.length
    · simp [hl, hn] at h
    · by_cases hc : unusedWords.length + ((pyDictLookup inUse uid).getD []).length ≤ n
      · simp [hl, hn, hc] at h
      · simp [hl, hn, hc]

/-- C8.  Whenever the combinatorial search for a lexical identity yields no
valid combination (findMostDifferentCombination returns None), that identity
is skipped for the run: the error is logged, the flashcard map is returned
unchanged (no flashcards are emitted for the identity), and the per-identity
loop continues with the remaining identities exactly as if the identity had
not been processed. -/
theorem mostDifferentAlgorithm_skips_on_none :
    ∀ (keys : List Str) (benefit : Bool) (n : Nat) (uid : Str) (words : List WordOcc)
      (inUse : List (Str × List ClozeFlashcard))
      (dict : List (Str × List SimpleClozeFlashcard))
      (rest : List (Str × List WordOcc)),
      (preAlgorithmChecks uid dict n inUse
        (unusedWordsFor words ((pyDictLookup inUse uid).getD []))).2 = false →
      findMostDifferentCombination keys benefit
        (lineIdToWordFor (unusedWordsFor words ((pyDictLookup inUse uid).getD []))
          ((pyDictLookup inUse uid).getD []))
        (combosFor n (unusedWordsFor words ((pyDictLookup inUse uid).getD []))
          ((pyDictLookup inUse uid).getD [])) = none →
      processUniqueWordId keys benefit n uid words inUse dict = dict ∧
      mostDifferentAlgorithmLoop keys benefit n ((uid, words) :: rest) inUse dict =
        mostDifferentAlgorithmLoop keys benefit n rest inUse dict := by
  intro keys benefit n uid words inUse dict rest hpre hfind
  have hmain : processUniqueWordId keys benefit n uid words inUse dict = dict := by
    simp only [processUniqueWordId, hpre, Bool.false_eq_true, if_false, hfind]
    exact preAlgorithmChecks_false_leaves_dict uid dict n inUse _ hpre
  refine ⟨hmain, ?_⟩
  rw [mostDifferentAlgorithmLoop, mostDifferentAlgorithmLoop, List.foldl_cons]
  congr 1

/-- Witness for C8: in the duplicated corpus with target 1 the search runs
(2 unused + 0 in use exceeds the target), every candidate scores 0, the
search returns None, and the identity a is skipped with the flashcard map
left empty while the loop continues. -/
theorem mostDifferentAlgorithm_skips_on_none_witness :
    processUniqueWordId dupCorpusKeys false 1 "a".data dupCorpusOccs [] [] = [] ∧
    mostDifferentAlgorithmLoop dupCorpusKeys false 1 [("a".data, dupCorpusOccs)] [] [] =
      mostDifferentAlgorithmLoop dupCorpusKeys false 1 [] [] [] :=
  mostDifferentAlgorithm_skips_on_none dupCorpusKeys false 1 "a".data dupCorpusOccs [] [] []
    (by decide) dup_find_eq_none

/-- Every chunk is its leading punctuation run, then its stripped word, then
its trailing punctuation run. -/
theorem chunk_decomposition (c : Str) : chunkPre c ++ chunkCore c ++ chunkPost c = c := by
  rw [chunkPre, chunkCore, chunkPost, List.append_assoc]
  have h2 : ((c.dropWhile isPunctChar).reverse.dropWhile isPunctChar).reverse ++
      ((c.dropWhile isPunctChar).reverse.takeWhile isPunctChar).reverse =
      c.dropWhile isPunctChar := by
    rw [← List.reverse_append, List.takeWhile_append_dropWhile, List.reverse_reverse]
  rw [h2, List.takeWhile_append_dropWhile]

/-- A lookup that hits in the first dictionary also hits in the
concatenation. -/
theorem pyDictLookup_append_left {α β : Type} [DecidableEq α]
    (d1 d2 : List (α × β)) (k : α) (v : β) (h : pyDictLookup d1 k = some v) :
    pyDictLookup (d1 ++ d2) k = some v := by
  induction d1 with
  | nil => simp [pyDictLookup] at h
  | cons e rest ih =>
    rw [pyDictLookup] at h
    rw [List.cons_append, pyDictLookup]
    by_cases he : e.1 = k
    · simpa [he] using h
    · rw [if_neg he] at h ⊢
      exact ih h

/-- A lookup that misses the first dictionary falls through to the second. -/
theorem pyDictLookup_append_right {α β : Type} [DecidableEq α]
    (d1 d2 : List (α × β)) (k : α) (h : pyDictLookup d1 k = none) :
    pyDictLookup (d1 ++ d2) k = pyDictLookup d2 k := by
  induction d1 with
  | nil => simp
  | cons e rest ih =>
    rw [pyDictLookup] at h
    rw [List.cons_append, pyDictLookup]
    by_cases he : e.1 = k
    · simp [he] at h
    · rw [if_neg he] at h ⊢
      exact ih h

/-- Ensuring an absent key appends an empty entry. -/
theorem pyDictEnsure_of_not_contains {α β : Type} [DecidableEq α]
    (d : List (α × List β)) (k : α) (h : pyDictContains d k = false) :
    pyDictEnsure d k = d ++ [(k, [])] := by
  rw [pyDictEnsure, h]
  simp

/-- Pushing onto a key that only occurs as the freshly appended last entry
modifies exactly that entry. -/
theorem pyDictPush_append_last {α β : Type} [DecidableEq α]
    (d : List (α × List β)) (k : α) (l : List β) (p : β)
    (h : pyDictContains d k = false) :
    pyDictPush (d ++ [(k, l)]) k p = d ++ [(k, l ++ [p])] := by
  induction d with
  | nil => simp [pyDictPush]
  | cons e rest ih =>
    rw [pyDictContains, pyDictLookup] at h
    by_cases he : e.1 = k
    · rw [if_pos he] at h
      simp at h
    · rw [if_neg he] at h
      rw [List.cons_append, pyDictPush, List.map_cons, if_neg he]
      rw [pyDictPush] at ih
      rw [ih h, List.cons_append]

/-- Keys at or beyond the run are absent from a chunk-marks dictionary. -/
theorem chunkMarksDict_lookup_ge (cs : List Str) :
    ∀ (k0 j : Nat), k0 + cs.length ≤ j ∨ j < k0 →
      pyDictLookup (chunkMarksDict k0 cs) j = none := by
  induction cs with
  | nil => intro k0 j _; rfl
  | cons c rest ih =>
    intro k0 j hj
    rw [List.length_cons] at hj
    rw [chunkMarksDict, pyDictLookup, if_neg (show ¬ k0 = j by omega)]
    exact ih (k0 + 1) j (by omega)

/-- Lookup inside a chunk-marks dictionary returns the marks of the chunk at
the offset position. -/
theorem chunkMarksDict_lookup_lt (cs : List Str) :
    ∀ (k0 j : Nat), j < cs.length →
      pyDictLookup (chunkMarksDict k0 cs) (k0 + j) = some (chunkMarks (cs.getD j [])) := by
  induction cs with
  | nil => intro k0 j hj; simp at hj
  | cons c rest ih =>
    intro k0 j hj
    rw [chunkMarksDict, pyDictLookup]
    cases j with
    | zero => simp
    | succ j2 =>
      rw [if_neg (by omega)]
      have := ih (k0 + 1) j2 (by simpa using hj)
      rw [show k0 + (j2 + 1) = k0 + 1 + j2 by omega]
      simpa using this

/-- Unpacking of the okChunk predicate. -/
theorem okChunk_spec (c : Str) (h : okChunk c = true) :
    c ≠ [] ∧ (∀ x ∈ c, x.isWhitespace = false) ∧ chunkCore c ≠ [] ∧
      (chunkCore c).contains '_' = false := by
  rw [okChunk] at h
  simp only [Bool.and_eq_true, Bool.not_eq_true', List.all_eq_true] at h
  obtain ⟨⟨⟨h1, h2⟩, h3⟩, h4⟩ := h
  refine ⟨by simpa using h1, ?_, by simpa using h3, h4⟩
  intro x hx
  simpa using h2 x hx

/-- Recognized punctuation characters are not whitespace. -/
theorem isPunctChar_not_ws (x : Char) (h : isPunctChar x = true) :
    x.isWhitespace = false := by
  rw [isPunctChar, punctuationChars] at h
  simp only [List.contains_cons, List.contains_nil, Bool.or_eq_true, beq_iff_eq,
    Bool.or_false] at h
  rcases h with h | h | h | h | h <;> subst h <;> decide

/-- A nonempty list has isEmpty false. -/
theorem isEmpty_false_of_ne_nil {α : Type} (l : List α) (h : l ≠ []) :
    l.isEmpty = false := by
  cases hx : l with
  | nil => exact absurd hx h
  | cons a t => rfl

/-- Parsing one well-behaved word chunk at a fresh position: the stripped
word survives, no ALONE mark is produced, and exactly the chunk marks are
appended under the position. -/
theorem processPunctuation_okChunk (c : Str) (h : okChunk c = true)
    (d : List (Nat × List Punctuation)) (k : Nat) (hk : pyDictContains d k = false) :
    processPunctuation c d k = (chunkCore c, false, d ++ [(k, chunkMarks c)]) := by
  obtain ⟨-, -, hcore, -⟩ := okChunk_spec c h
  have hfold1 : c.takeWhile isPunctChar = chunkPre c := rfl
  have hfold2 : ((c.dropWhile isPunctChar).reverse.dropWhile isPunctChar).reverse =
      chunkCore c := rfl
  have hfold3 : ((c.dropWhile isPunctChar).reverse.takeWhile isPunctChar).reverse =
      chunkPost c := rfl
  have hcoreb : (chunkCore c).isEmpty = false := isEmpty_false_of_ne_nil _ hcore
  have hens := pyDictEnsure_of_not_contains d k hk
  simp only [processPunctuation, hfold1, hfold2, hfold3, hcoreb, Bool.false_eq_true,
    if_false, hens]
  by_cases hpre : chunkPre c = []
  · by_cases hpost : chunkPost c = []
    · simp [hpre, hpost, chunkMarks]
    · obtain ⟨b, m, hposteq⟩ := List.exists_cons_of_ne_nil hpost
      rw [hpre, hposteq]
      simp only [List.isEmpty_nil, if_true, List.isEmpty_cons, Bool.false_eq_true, if_false]
      rw [pyDictPush_append_last d k [] _ hk]
      simp [chunkMarks, hpre, hposteq]
  · obtain ⟨a, l, hpreeq⟩ := List.exists_cons_of_ne_nil hpre
    by_cases hpost : chunkPost c = []
    · rw [hpreeq, hpost]
      simp only [List.isEmpty_nil, if_true, List.isEmpty_cons, Bool.false_eq_true, if_false]
      rw [pyDictPush_append_last d k [] _ hk]
      simp [chunkMarks, hpreeq, hpost]
    · obtain ⟨b, m, hposteq⟩ := List.exists_cons_of_ne_nil hpost
      rw [hpreeq, hposteq]
      simp only [List.isEmpty_cons, Bool.false_eq_true, if_false]
      rw [pyDictPush_append_last d k [] _ hk, pyDictPush_append_last d k _ _ hk]
      simp [chunkMarks, hpreeq, hposteq]

/-- Parsing one punctuation-only chunk at a fresh position records exactly
one ALONE mark carrying the whole chunk. -/
theorem processPunctuation_aloneChunk (c : Str) (h : aloneChunk c = true)
    (d : List (Nat × List Punctuation)) (k : Nat) (hk : pyDictContains d k = false) :
    processPunctuation c d k = ([], true, d ++ [(k, [⟨c, .ALONE⟩])]) := by
  rw [aloneChunk] at h
  simp only [Bool.and_eq_true, Bool.not_eq_true', List.all_eq_true] at h
  obtain ⟨-, hall⟩ := h
  have hdrop : c.dropWhile isPunctChar = [] := List.dropWhile_eq_nil_iff.mpr hall
  have htake : c.takeWhile isPunctChar = c := List.takeWhile_eq_self_iff.mpr hall
  simp only [processPunctuation, hdrop, htake]
  rw [pyDictEnsure_of_not_contains d k hk]
  rw [pyDictPush_append_last d k [] _ hk]
  simp

/-- pySplitAux consumes a whitespace-free run into its accumulator. -/
theorem pySplitAux_word (w : Str) :
    (∀ x ∈ w, x.isWhitespace = false) →
    ∀ (s : Str) (acc : Str), pySplitAux (w ++ s) acc = pySplitAux s (w.reverse ++ acc) := by
  induction w with
  | nil => intro _ s acc; simp
  | cons ch w2 ih =>
    intro hw s acc
    have hch : ch.isWhitespace = false := hw ch (List.mem_cons_self ch w2)
    rw [List.cons_append, pySplitAux, if_neg (by simp [hch])]
    rw [ih (fun x hx => hw x (List.mem_cons_of_mem _ hx)) s (ch :: acc)]
    congr 1
    simp

/-- pySplit is a left inverse of joinSpace on nonempty whitespace-free
chunks. -/
theorem pySplit_joinSpace (cs : List Str) :
    (∀ c ∈ cs, c ≠ []) → (∀ c ∈ cs, ∀ x ∈ c, x.isWhitespace = false) →
    pySplit (joinSpace cs) = cs := by
  induction cs with
  | nil => intro _ _; rfl
  | cons c rest ih =>
    intro hne hws
    have hcne : c ≠ [] := hne c (List.mem_cons_self c rest)
    have hcws : ∀ x ∈ c, x.isWhitespace = false := hws c (List.mem_cons_self c rest)
    cases rest with
    | nil =>
      have h1 := pySplitAux_word c hcws [] []
      rw [List.append_nil, List.append_nil] at h1
      rw [pySplit, joinSpace, h1, pySplitAux]
      rw [if_neg (by simpa using fun h => hcne (by simpa using h))]
      simp
    | cons c2 rest2 =>
      have h1 := pySplitAux_word c hcws (' ' :: joinSpace (c2 :: rest2)) []
      rw [List.append_nil] at h1
      rw [pySplit, joinSpace, h1, pySplitAux, if_pos (by decide)]
      rw [if_neg (by simpa using fun h => hcne (by simpa using h))]
      rw [List.reverse_reverse]
      have ih2 := ih (fun x hx => hne x (List.mem_cons_of_mem c hx))
        (fun x hx => hws x (List.mem_cons_of_mem c hx))
      rw [pySplit] at ih2
      rw [ih2]

/-- Beyond position 0 the start index of sepJoin is irrelevant. -/
theorem sepJoin_flatten (cs : List Str) :
    ∀ k : Nat, 0 < k → sepJoin k cs = (cs.map (fun c => ' ' :: c)).flatten := by
  induction cs with
  | nil => intro k _; rfl
  | cons c rest ih =>
    intro k hk
    rw [sepJoin, if_pos hk, List.map_cons, List.flatten_cons, ih (k + 1) (by omega)]
    rfl

/-- joinSpace written with explicit per-chunk leading spaces. -/
theorem joinSpace_cons_flatten (c : Str) (cs : List Str) :
    joinSpace (c :: cs) = c ++ (cs.map (fun x => ' ' :: x)).flatten := by
  induction cs generalizing c with
  | nil => simp [joinSpace]
  | cons c2 rest ih =>
    rw [joinSpace, ih c2, List.map_cons, List.flatten_cons]
    simp

/-- The stringifier body join sepJoin 0 agrees with joinSpace. -/
theorem joinSpace_eq_sepJoin (cs : List Str) : joinSpace cs = sepJoin 0 cs := by
  cases cs with
  | nil => rfl
  | cons c rest =>
    rw [joinSpace_cons_flatten, sepJoin, if_neg (by omega), sepJoin_flatten rest 1 (by omega)]
    simp

/-- A chunk-marks entry never contains an ALONE mark. -/
theorem chunkMarks_alone (c : Str) : firstWithPosition (chunkMarks c) .ALONE = none := by
  rw [chunkMarks, firstWithPosition]
  by_cases h1 : (chunkPre c).isEmpty <;> by_cases h2 : (chunkPost c).isEmpty <;>
    simp [h1, h2, List.filter]

/-- The BEFORE mark of a chunk-marks entry is its leading punctuation run,
when nonempty. -/
theorem chunkMarks_before (c : Str) :
    firstWithPosition (chunkMarks c) .BEFORE =
      if (chunkPre c).isEmpty then none else some ⟨chunkPre c, .BEFORE⟩ := by
  rw [chunkMarks, firstWithPosition]
  by_cases h1 : (chunkPre c).isEmpty <;> by_cases h2 : (chunkPost c).isEmpty <;>
    simp [h1, h2, List.filter]

/-- The AFTER mark of a chunk-marks entry is its trailing punctuation run,
when nonempty. -/
theorem chunkMarks_after (c : Str) :
    firstWithPosition (chunkMarks c) .AFTER =
      if (chunkPost c).isEmpty then none else some ⟨chunkPost c, .AFTER⟩ := by
  rw [chunkMarks, firstWithPosition]
  by_cases h1 : (chunkPre c).isEmpty <;> by_cases h2 : (chunkPost c).isEmpty <;>
    simp [h1, h2, List.filter]

/-- A chunk-marks entry is empty exactly when both punctuation runs are. -/
theorem chunkMarks_isEmpty (c : Str) :
    (chunkMarks c).isEmpty = ((chunkPre c).isEmpty && (chunkPost c).isEmpty) := by
  rw [chunkMarks]
  by_cases h1 : (chunkPre c).isEmpty <;> by_cases h2 : (chunkPost c).isEmpty <;>
    simp [h1, h2]

/-- An untagged word string passes through the expression router unchanged. -/
theorem processMultiWordExpressions_no_tag (w : Str) (keys : List Int)
    (hw : w.contains '_' = false) :
    (processMultiWordExpressions w keys).1 = w := by
  have hw2 : ¬ ('_' ∈ w) := by simpa using hw
  rw [processMultiWordExpressions]
  simp [hw2]

/-- A dictionary does not contain a key exactly when lookup misses. -/
theorem pyDictContains_false_iff {α β : Type} [DecidableEq α]
    (d : List (α × β)) (k : α) :
    pyDictContains d k = false ↔ pyDictLookup d k = none := by
  rw [pyDictContains]
  cases pyDictLookup d k <;> simp

/-- Folding the chunk loop over a run of well-behaved word chunks appends one
word per chunk (carrying its stripped string), appends exactly the chunk
marks to the punctuation map, and leaves the alone counter unchanged. -/
theorem parseChunkStep_fold_ok :
    ∀ (cs : List Str), (∀ c ∈ cs, okChunk c = true) →
    ∀ (i0 : Nat) (st : ParseState),
      i0 - st.alonePunctuation = st.words.length →
      st.alonePunctuation ≤ i0 →
      (∀ j, st.words.length ≤ j → pyDictContains st.punctuationDict j = false) →
      ∃ ws, ((cs.enumFrom i0).foldl parseChunkStep st).words = st.words ++ ws ∧
        ws.map (fun w => w.thisWordString) = cs.map chunkCore ∧
        ((cs.enumFrom i0).foldl parseChunkStep st).punctuationDict =
          st.punctuationDict ++ chunkMarksDict st.words.length cs ∧
        ((cs.enumFrom i0).foldl parseChunkStep st).alonePunctuation =
          st.alonePunctuation := by
  intro cs
  induction cs with
  | nil =>
    intro _ i0 st _ _ _
    exact ⟨[], by simp, rfl, by simp [chunkMarksDict], rfl⟩
  | cons c rest ih =>
    intro hok i0 st hidx hle hfree
    rw [List.enumFrom_cons, List.foldl_cons]
    have hproc := processPunctuation_okChunk c (hok c (List.mem_cons_self c rest))
      st.punctuationDict st.words.length (hfree _ (le_refl _))
    obtain ⟨-, -, -, hnotag⟩ := okChunk_spec c (hok c (List.mem_cons_self c rest))
    have hstep : parseChunkStep st (i0, c) =
        ⟨st.words ++
            [⟨chunkCore c, some (processMultiWordExpressions (chunkCore c) st.mweKeys).2.1⟩],
          st.punctuationDict ++ [(st.words.length, chunkMarks c)],
          st.alonePunctuation,
          (processMultiWordExpressions (chunkCore c) st.mweKeys).2.2⟩ := by
      simp only [parseChunkStep, hidx, hproc, Bool.false_eq_true, if_false,
        processMultiWordExpressions_no_tag (chunkCore c) st.mweKeys hnotag]
    rw [hstep]
    have hfree1 : ∀ j, st.words.length + 1 ≤ j →
        pyDictContains (st.punctuationDict ++ [(st.words.length, chunkMarks c)]) j =
          false := by
      intro j hj
      rw [pyDictContains_false_iff]
      rw [pyDictLookup_append_right _ _ _
        ((pyDictContains_false_iff _ _).mp (hfree j (by omega)))]
      rw [pyDictLookup, if_neg (by omega)]
      rfl
    obtain ⟨ws2, h1, h2, h3, h4⟩ := ih (fun x hx => hok x (List.mem_cons_of_mem c hx))
      (i0 + 1)
      ⟨st.words ++
          [⟨chunkCore c, some (processMultiWordExpressions (chunkCore c) st.mweKeys).2.1⟩],
        st.punctuationDict ++ [(st.words.length, chunkMarks c)],
        st.alonePunctuation,
        (processMultiWordExpressions (chunkCore c) st.mweKeys).2.2⟩
      (by simp; omega) (by simp; omega) (by simpa using hfree1)
    refine ⟨⟨chunkCore c, some (processMultiWordExpressions (chunkCore c) st.mweKeys).2.1⟩ ::
      ws2, ?_, ?_, ?_, ?_⟩
    · rw [h1]
      simp
    · simp only [List.map_cons, h2]
    · rw [h3]
      simp only [List.length_append, List.length_cons, List.length_nil]
      rw [chunkMarksDict, List.append_assoc]
      rfl
    · rw [h4]

/-- The word loop of the stringifier renders every well-behaved chunk back
exactly, with one leading space for every position after 0. -/
theorem stringify_body_eq (punctuationDict : List (Nat × List Punctuation)) :
    ∀ (cs : List Str) (ws : List Word) (i0 : Nat),
      (∀ c ∈ cs, okChunk c = true) →
      ws.map (fun w => w.thisWordString) = cs.map chunkCore →
      (∀ j, j < cs.length →
        pyDictLookup punctuationDict (i0 + j) = some (chunkMarks (cs.getD j []))) →
      ((ws.enumFrom i0).map (fun iw =>
        let sep : Str := if 0 < iw.1 then [' '] else []
        match pyDictLookup punctuationDict iw.1 with
        | none => sep ++ iw.2.thisWordString
        | some ps =>
          if ps.isEmpty then sep ++ iw.2.thisWordString
          else
            let aloneStr : Str := match firstWithPosition ps .ALONE with
              | some p => p.character ++ [' ']
              | none => []
            let w1 : Str := match firstWithPosition ps .BEFORE with
              | some p => p.character ++ iw.2.thisWordString
              | none => iw.2.thisWordString
            let w2 : Str := match firstWithPosition ps .AFTER with
              | some p => w1 ++ p.character
              | none => w1
            sep ++ aloneStr ++ w2)).flatten = sepJoin i0 cs := by
  intro cs
  induction cs with
  | nil =>
    intro ws i0 _ hws _
    have : ws = [] := by simpa using hws
    subst this
    rfl
  | cons c rest ih =>
    intro ws i0 hok hws hl
    cases ws with
    | nil => simp at hws
    | cons w ws2 =>
      simp only [List.map_cons, List.cons.injEq] at hws
      obtain ⟨hw, hws2⟩ := hws
      rw [List.enumFrom_cons, List.map_cons, List.flatten_cons, sepJoin]
      have hl0 : pyDictLookup punctuationDict i0 = some (chunkMarks c) := by
        have := hl 0 (by simp)
        simpa using this
      have hrest : ((ws2.enumFrom (i0 + 1)).map _).flatten = sepJoin (i0 + 1) rest :=
        ih ws2 (i0 + 1) (fun x hx => hok x (List.mem_cons_of_mem c hx)) hws2
          (fun j hj => by
            have := hl (j + 1) (by simpa using Nat.succ_lt_succ hj)
            rw [show i0 + 1 + j = i0 + (j + 1) by omega]
            simpa using this)
      refine congrArg₂ (· ++ ·) ?_ hrest
      simp only [hl0]
      by_cases hpre : chunkPre c = []
      · by_cases hpost : chunkPost c = []
        · have hmarks : chunkMarks c = [] := by
            simp [chunkMarks, hpre, hpost]
          have hcc : chunkCore c = c := by
            conv_rhs => rw [← chunk_decomposition c]
            rw [hpre, hpost]
            simp
          simp [hmarks, hw, hcc]
        · have hme : (chunkMarks c).isEmpty = false := by
            rw [chunkMarks_isEmpty, hpre]
            simp [isEmpty_false_of_ne_nil _ hpost]
          have hcc : chunkCore c ++ chunkPost c = c := by
            conv_rhs => rw [← chunk_decomposition c]
            rw [hpre]
            simp
          simp only [hme, Bool.false_eq_true, if_false, chunkMarks_alone, chunkMarks_before,
            chunkMarks_after, hpre, if_pos (by rfl : ([] : Str).isEmpty = true),
            if_neg (by simpa using isEmpty_false_of_ne_nil _ hpost)]
          rw [hw]
          simp [hpost, hcc]
      · by_cases hpost : chunkPost c = []
        · have hme : (chunkMarks c).isEmpty = false := by
            rw [chunkMarks_isEmpty]
            simp [isEmpty_false_of_ne_nil _ hpre]
          have hcc : chunkPre c ++ chunkCore c = c := by
            conv_rhs => rw [← chunk_decomposition c]
            rw [hpost]
            simp
          simp only [hme, Bool.false_eq_true, if_false, chunkMarks_alone, chunkMarks_before,
            chunkMarks_after, hpost, if_pos (by rfl : ([] : Str).isEmpty = true),
            if_neg (by simpa using isEmpty_false_of_ne_nil _ hpre)]
          rw [hw]
          simp [hpre, hpost, hcc]
        · have hme : (chunkMarks c).isEmpty = false := by
            rw [chunkMarks_isEmpty]
            simp [isEmpty_false_of_ne_nil _ hpre]
          simp only [hme, Bool.false_eq_true, if_false, chunkMarks_alone, chunkMarks_before,
            chunkMarks_after,
            if_neg (by simpa using isEmpty_false_of_ne_nil _ hpre),
            if_neg (by simpa using isEmpty_false_of_ne_nil _ hpost)]
          rw [hw]
          simp only [List.append_assoc]
          simp [hpre, hpost]
          simpa using chunk_decomposition c

/-- Unpacking of the aloneChunk predicate. -/
theorem aloneChunk_spec (m : Str) (hm : aloneChunk m = true) :
    m ≠ [] ∧ ∀ x ∈ m, isPunctChar x = true := by
  rw [aloneChunk] at hm
  simp only [Bool.and_eq_true, Bool.not_eq_true', List.all_eq_true] at hm
  exact ⟨by simpa using hm.1, hm.2⟩

/-- Stringifying a Line made of well-behaved words with their chunk marks
reproduces the space-joined chunks. -/
theorem stringify_parsed_ok (cs : List Str) (hok : ∀ c ∈ cs, okChunk c = true)
    (ws : List Word) (hws : ws.map (fun w => w.thisWordString) = cs.map chunkCore) :
    stringifyWordsAndPunctuation ws (chunkMarksDict 0 cs) = joinSpace cs := by
  have hlen : ws.length = cs.length := by
    have := congrArg List.length hws
    simpa using this
  have hend : pyDictLookup (chunkMarksDict 0 cs) ws.length = none := by
    rw [hlen]
    exact chunkMarksDict_lookup_ge cs 0 cs.length (Or.inl (by omega))
  have hbody := stringify_body_eq (chunkMarksDict 0 cs) cs ws 0 hok hws
    (fun j hj => chunkMarksDict_lookup_lt cs 0 j hj)
  simp only [stringifyWordsAndPunctuation, hend]
  rw [show List.enum ws = List.enumFrom 0 ws from rfl]
  rw [hbody, ← joinSpace_eq_sepJoin]
  simp

/-- Stringifying a Line made of well-behaved words plus one trailing ALONE
mark emits the joined words, then the mark, then one trailing space. -/
theorem stringify_parsed_alone (cs : List Str) (hok : ∀ c ∈ cs, okChunk c = true)
    (m : Str) (ws : List Word)
    (hws : ws.map (fun w => w.thisWordString) = cs.map chunkCore) :
    stringifyWordsAndPunctuation ws
      (chunkMarksDict 0 cs ++ [(cs.length, [⟨m, .ALONE⟩])]) =
      joinSpace cs ++ m ++ [' '] := by
  have hlen : ws.length = cs.length := by
    have := congrArg List.length hws
    simpa using this
  have hend : pyDictLookup (chunkMarksDict 0 cs ++ [(cs.length, [⟨m, .ALONE⟩])])
      ws.length = some [⟨m, .ALONE⟩] := by
    rw [hlen]
    rw [pyDictLookup_append_right _ _ _
      (chunkMarksDict_lookup_ge cs 0 cs.length (Or.inl (by omega)))]
    rw [pyDictLookup, if_pos rfl]
  have hbody := stringify_body_eq (chunkMarksDict 0 cs ++ [(cs.length, [⟨m, .ALONE⟩])])
    cs ws 0 hok hws
    (fun j hj => pyDictLookup_append_left _ _ _ _ (chunkMarksDict_lookup_lt cs 0 j hj))
  simp only [stringifyWordsAndPunctuation, hend]
  rw [show List.enum ws = List.enumFrom 0 ws from rfl]
  rw [hbody, ← joinSpace_eq_sepJoin]
  simp [firstWithPosition, List.filter]

/-- Parsing the space join of well-behaved chunks produces one word per chunk
and exactly the chunk-marks punctuation map. -/
theorem parse_joinSpace_ok (cs : List Str) (hok : ∀ c ∈ cs, okChunk c = true) :
    ∃ ws, (parseSentenceLine (joinSpace cs) [] true).1 =
      ⟨ws, chunkMarksDict 0 cs⟩ ∧
      ws.map (fun w => w.thisWordString) = cs.map chunkCore := by
  have hsplit : pySplit (joinSpace cs) = cs :=
    pySplit_joinSpace cs (fun c hc => (okChunk_spec c (hok c hc)).1)
      (fun c hc => (okChunk_spec c (hok c hc)).2.1)
  obtain ⟨ws, h1, h2, h3, h4⟩ := parseChunkStep_fold_ok cs hok 0 ⟨[], [], 0, []⟩ rfl
    (by decide) (fun j _ => rfl)
  refine ⟨ws, ?_, h2⟩
  simp only [parseSentenceLine, hsplit]
  rw [show List.enum cs = List.enumFrom 0 cs from rfl]
  rw [Line.mk.injEq]
  constructor
  · rw [h1]
    simp
  · rw [h3]
    simp

/-- Parsing the space join of well-behaved chunks followed by one
punctuation-only chunk additionally records a single trailing ALONE mark at
the position just after the words. -/
theorem parse_joinSpace_alone (cs : List Str) (hok : ∀ c ∈ cs, okChunk c = true)
    (m : Str) (hm : aloneChunk m = true) :
    ∃ ws, (parseSentenceLine (joinSpace (cs ++ [m])) [] true).1 =
      ⟨ws, chunkMarksDict 0 cs ++ [(cs.length, [⟨m, .ALONE⟩])]⟩ ∧
      ws.map (fun w => w.thisWordString) = cs.map chunkCore := by
  obtain ⟨hmne, hmp⟩ := aloneChunk_spec m hm
  have hsplit : pySplit (joinSpace (cs ++ [m])) = cs ++ [m] := by
    refine pySplit_joinSpace _ ?_ ?_
    · intro c hc
      rcases List.mem_append.mp hc with hc | hc
      · exact (okChunk_spec c (hok c hc)).1
      · rw [List.mem_singleton.mp hc]
        exact hmne
    · intro c hc x hx
      rcases List.mem_append.mp hc with hc | hc
      · exact (okChunk_spec c (hok c hc)).2.1 x hx
      · rw [List.mem_singleton.mp hc] at hx
        exact isPunctChar_not_ws x (hmp x hx)
  obtain ⟨ws, h1, h2, h3, h4⟩ := parseChunkStep_fold_ok cs hok 0 ⟨[], [], 0, []⟩ rfl
    (by decide) (fun j _ => rfl)
  have hlen : ws.length = cs.length := by
    have := congrArg List.length h2
    simpa using this
  refine ⟨ws, ?_, h2⟩
  simp only [parseSentenceLine, hsplit]
  rw [show List.enum (cs ++ [m]) = List.enumFrom 0 (cs ++ [m]) from rfl]
  rw [List.enumFrom_append, List.foldl_append]
  rw [show List.enumFrom (0 + cs.length) [m] = [(cs.length, m)] by simp [List.enumFrom_cons]]
  rw [List.foldl_cons, List.foldl_nil]
  have hwords0 : (List.foldl parseChunkStep ⟨[], [], 0, []⟩ (List.enumFrom 0 cs)).words =
      ws := by
    rw [h1]
    simp
  have hdict0 : (List.foldl parseChunkStep ⟨[], [], 0, []⟩
      (List.enumFrom 0 cs)).punctuationDict = chunkMarksDict 0 cs := by
    rw [h3]
    simp
  have hcont : pyDictContains (chunkMarksDict 0 cs) (cs.length) = false := by
    rw [pyDictContains_false_iff]
    exact chunkMarksDict_lookup_ge cs 0 cs.length (Or.inl (by omega))
  have hreal : cs.length -
      (List.foldl parseChunkStep ⟨[], [], 0, []⟩ (List.enumFrom 0 cs)).alonePunctuation =
      cs.length := by
    rw [h4]
    simp
  have hproc := processPunctuation_aloneChunk m hm (chunkMarksDict 0 cs) cs.length hcont
  simp only [parseChunkStep, hreal, hdict0, hproc, if_true]
  rw [Line.mk.injEq]
  exact ⟨hwords0, rfl⟩

/-- C10 counterexample: the round trip is not the identity. The MWE-tagged
line "a_1 b" (no punctuation-only chunk) stringifies to "a b" with the tag
stripped, and "a b ." stringifies to "a b. ", not to the original line plus
one trailing space — the separating space before the alone mark is dropped. -/
theorem stringify_parse_counterexample :
    parseStringifyRoundTrip "a_1 b".data = "a b".data ∧
    "a b".data ≠ "a_1 b".data ∧
    parseStringifyRoundTrip "a b .".data = "a b. ".data ∧
    "a b. ".data ≠ "a b .".data ++ [' '] := by
  decide

/-- C10 (amended): for a line that is the space join of ordinary chunks
(nonempty, whitespace-free, with a nonempty core and no underscore tag),
parsing then stringifying reproduces the line exactly; when such a line is
followed by one final punctuation-only chunk, the stringified form is the
joined ordinary chunks directly followed by the alone mark and one trailing
space, i.e. the separating space before the alone chunk is dropped and one
space is appended after it. -/
theorem stringify_parse_roundtrip_amended :
    (∀ cs : List Str, (∀ c ∈ cs, okChunk c = true) →
      parseStringifyRoundTrip (joinSpace cs) = joinSpace cs) ∧
    (∀ (cs : List Str) (m : Str), (∀ c ∈ cs, okChunk c = true) →
      aloneChunk m = true →
      parseStringifyRoundTrip (joinSpace (cs ++ [m])) =
        joinSpace cs ++ m ++ [' ']) := by
  constructor
  · intro cs hok
    obtain ⟨ws, hline, hws⟩ := parse_joinSpace_ok cs hok
    simp only [parseStringifyRoundTrip, lineIdStr, hline]
    exact stringify_parsed_ok cs hok ws hws
  · intro cs m hok hm
    obtain ⟨ws, hline, hws⟩ := parse_joinSpace_alone cs hok m hm
    simp only [parseStringifyRoundTrip, lineIdStr, hline]
    exact stringify_parsed_alone cs hok m ws hws

/-- Witness instantiating both parts of the amended C10 round-trip theorem
at concrete lines "a b," and "a b .". -/
theorem stringify_parse_roundtrip_amended_witness :
    parseStringifyRoundTrip (joinSpace ["a".data, "b,".data]) =
      joinSpace ["a".data, "b,".data] ∧
    parseStringifyRoundTrip (joinSpace (["a".data, "b".data] ++ [".".data])) =
      joinSpace ["a".data, "b".data] ++ ".".data ++ [' '] :=
  ⟨stringify_parse_roundtrip_amended.1 ["a".data, "b,".data] (by decide),
   stringify_parse_roundtrip_amended.2 ["a".data, "b".data] ".".data
     (by decide) (by decide)⟩
